import Mathlib

/-!
Verification development for the `nbounce` GPU path tracer.

This file gives a shallow embedding of the host-side core of the repository:

* `src/bvh.rs` — SAH BVH construction (`BVHTree::build_bvh` and helpers);
* `src/pathtracer.rs` — the progressive-sampling driver (`Pathtracer`);
* `src/common/performance_metric.rs` — the frame-time ring buffer.

`f32` values are embedded as extended rationals (`EF`): a rational payload
plus IEEE special values `nan`, `+inf`, `-inf`.  Comparisons, `min`/`max`
(Rust `f32::min`/`f32::max`, which ignore a NaN argument), and arithmetic
on the special values follow IEEE-754 semantics; finite arithmetic is exact
rational arithmetic (rounding of finite intermediate results is idealized).
Machine integers (`u32`, `usize`) are embedded as `Nat`; the operations the
embedded code performs on them stay far below `2^32` overflow except for the
saturating `as u32` float cast, which is modelled explicitly.
-/

/-- Exact rational addition, written out on numerators and denominators
(definitionally transparent, unlike the standard irreducible `Rat.add`;
`qadd_eq_add` below shows it is plain `+`). -/
def qadd (a b : ℚ) : ℚ := Rat.divInt (a.num * b.den + b.num * a.den) (a.den * b.den)

/-- Exact rational multiplication on numerators and denominators
(`qmul_eq_mul` below shows it is plain `*`). -/
def qmul (a b : ℚ) : ℚ := Rat.divInt (a.num * b.num) (a.den * b.den)

/-- Exact rational inverse: flip numerator and denominator
(`qinv_eq_inv` below shows it is plain `⁻¹`). -/
def qinv (a : ℚ) : ℚ := Rat.divInt a.den a.num

/-- Exact rational division (`qdiv_eq_div` below shows it is plain `/`). -/
def qdiv (a b : ℚ) : ℚ := qmul a (qinv b)

/-- Extended rational scalar embedding `f32`: `nan`, `-inf`, a finite
rational, or `+inf`. -/
inductive EF where
  | nan : EF
  | neg_inf : EF
  | fin : ℚ → EF
  | pos_inf : EF
deriving DecidableEq

namespace EF

/-- `f32::is_nan`. -/
def isNan : EF → Bool
  | .nan => true
  | _ => false

/-- `f32::is_finite`. -/
def isFinite : EF → Bool
  | .fin _ => true
  | _ => false

/-- IEEE-754 strict `<` on `f32`: NaN is incomparable to everything. -/
def flt : EF → EF → Bool
  | .nan, _ => false
  | _, .nan => false
  | .neg_inf, .neg_inf => false
  | .neg_inf, _ => true
  | _, .neg_inf => false
  | .fin a, .fin b => a < b
  | .fin _, .pos_inf => true
  | .pos_inf, _ => false

/-- Rust `f32::min`: if one argument is NaN, the other is returned. -/
def fmin (a b : EF) : EF :=
  if a.isNan then b else if b.isNan then a else if flt b a then b else a

/-- Rust `f32::max`: if one argument is NaN, the other is returned. -/
def fmax (a b : EF) : EF :=
  if a.isNan then b else if b.isNan then a else if flt a b then b else a

/-- IEEE negation. -/
def fneg : EF → EF
  | .nan => .nan
  | .neg_inf => .pos_inf
  | .pos_inf => .neg_inf
  | .fin q => .fin (-q)

/-- IEEE addition: NaN absorbs, `+inf + -inf = nan`. -/
def fadd : EF → EF → EF
  | .nan, _ => .nan
  | _, .nan => .nan
  | .pos_inf, .neg_inf => .nan
  | .neg_inf, .pos_inf => .nan
  | .pos_inf, _ => .pos_inf
  | _, .pos_inf => .pos_inf
  | .neg_inf, _ => .neg_inf
  | _, .neg_inf => .neg_inf
  | .fin a, .fin b => .fin (qadd a b)

/-- IEEE subtraction `a - b = a + (-b)`. -/
def fsub (a b : EF) : EF := fadd a (fneg b)

/-- IEEE multiplication: NaN absorbs, `inf * 0 = nan`, signed infinities. -/
def fmul : EF → EF → EF
  | .nan, _ => .nan
  | _, .nan => .nan
  | .pos_inf, .pos_inf => .pos_inf
  | .pos_inf, .neg_inf => .neg_inf
  | .neg_inf, .pos_inf => .neg_inf
  | .neg_inf, .neg_inf => .pos_inf
  | .pos_inf, .fin q => if q = 0 then .nan else if 0 < q then .pos_inf else .neg_inf
  | .fin q, .pos_inf => if q = 0 then .nan else if 0 < q then .pos_inf else .neg_inf
  | .neg_inf, .fin q => if q = 0 then .nan else if 0 < q then .neg_inf else .pos_inf
  | .fin q, .neg_inf => if q = 0 then .nan else if 0 < q then .neg_inf else .pos_inf
  | .fin a, .fin b => .fin (qmul a b)

/-- IEEE division (the model has no signed zero, so `x / 0` takes the sign
of `x` and `+inf / 0 = +inf`). -/
def fdiv : EF → EF → EF
  | .nan, _ => .nan
  | _, .nan => .nan
  | .pos_inf, .pos_inf => .nan
  | .pos_inf, .neg_inf => .nan
  | .neg_inf, .pos_inf => .nan
  | .neg_inf, .neg_inf => .nan
  | .pos_inf, .fin q => if 0 ≤ q then .pos_inf else .neg_inf
  | .neg_inf, .fin q => if 0 ≤ q then .neg_inf else .pos_inf
  | .fin _, .pos_inf => .fin 0
  | .fin _, .neg_inf => .fin 0
  | .fin a, .fin b =>
    if b = 0 then (if a = 0 then .nan else if 0 < a then .pos_inf else .neg_inf)
    else .fin (qdiv a b)

/-- `f32::floor` (identity on the special values). -/
def ffloor : EF → EF
  | .nan => .nan
  | .neg_inf => .neg_inf
  | .pos_inf => .pos_inf
  | .fin q => .fin (⌊q⌋ : ℤ)

/-- Rust `as u32` cast: truncation with saturation; NaN casts to 0. -/
def toU32 : EF → ℕ
  | .nan => 0
  | .neg_inf => 0
  | .pos_inf => 4294967295
  | .fin q => if q < 0 then 0 else min (⌊q⌋.toNat) 4294967295

end EF

/-- Componentwise embedding of `glam::Vec3`. -/
structure EVec3 where
  x : EF
  y : EF
  z : EF
deriving DecidableEq

namespace EVec3

/-- `Vec3` indexing (`v[0]`, `v[1]`, `v[2]`); the source only indexes with
an axis in `0..3`. -/
def comp (v : EVec3) : ℕ → EF
  | 0 => v.x
  | 1 => v.y
  | _ => v.z

/-- `Vec3::min` (componentwise `f32::min`). -/
def vmin (a b : EVec3) : EVec3 := ⟨EF.fmin a.x b.x, EF.fmin a.y b.y, EF.fmin a.z b.z⟩

/-- `Vec3::max` (componentwise `f32::max`). -/
def vmax (a b : EVec3) : EVec3 := ⟨EF.fmax a.x b.x, EF.fmax a.y b.y, EF.fmax a.z b.z⟩

/-- Componentwise `Vec3` addition. -/
def vadd (a b : EVec3) : EVec3 := ⟨EF.fadd a.x b.x, EF.fadd a.y b.y, EF.fadd a.z b.z⟩

/-- Componentwise `Vec3` subtraction. -/
def vsub (a b : EVec3) : EVec3 := ⟨EF.fsub a.x b.x, EF.fsub a.y b.y, EF.fsub a.z b.z⟩

/-- `Vec3 / f32` (componentwise division by a scalar broadcast). -/
def vdivs (a : EVec3) (s : EF) : EVec3 := ⟨EF.fdiv a.x s, EF.fdiv a.y s, EF.fdiv a.z s⟩

/-- Componentwise `Vec3` division. -/
def vdiv (a b : EVec3) : EVec3 := ⟨EF.fdiv a.x b.x, EF.fdiv a.y b.y, EF.fdiv a.z b.z⟩

/-- `Vec3::is_finite`: all components finite. -/
def isFinite (v : EVec3) : Bool := v.x.isFinite && v.y.isFinite && v.z.isFinite

end EVec3

/-! ## BVH builder (`src/bvh.rs`) -/

/-- A mesh vertex as consumed by the BVH builder.  The source `Vertex`
(`src/common/mesh.rs`) stores a 4-component position plus normal, texcoord
and tangent; `build_bvh` only reads `position.xyz()`, which is what
`position` holds here. -/
structure Vertex where
  position : EVec3
deriving DecidableEq

instance : Inhabited Vertex := ⟨⟨⟨.fin 0, .fin 0, .fin 0⟩⟩⟩

/-- The slice of `Mesh` (`src/common/mesh.rs`) consumed by `build_bvh`:
the vertex list and the `u32` index list. -/
structure Mesh where
  vertices : List Vertex
  indices : List ℕ
deriving DecidableEq

/-- `BVHNode` (`src/bvh.rs`): `{min: Vec3, index: u32, max: Vec3, count: u32}`.
For a leaf, `index` is the first triangle index and `count` the number of
triangles; for an inner node `count = 0` and `index` is the left child. -/
structure BVHNode where
  min : EVec3
  index : ℕ
  max : EVec3
  count : ℕ
deriving DecidableEq

instance : Inhabited BVHNode := ⟨⟨⟨.fin 0, .fin 0, .fin 0⟩, 0, ⟨.fin 0, .fin 0, .fin 0⟩, 0⟩⟩

namespace BVHNode

/-- `BVHNode::is_leaf`: `self.count > 0`. -/
def is_leaf (n : BVHNode) : Bool := 0 < n.count

/-- `BVHNode::make_inner`: zero the count (inner marker) and point `index`
at the left child. -/
def make_inner (n : BVHNode) (left_child : ℕ) : BVHNode :=
  { n with count := 0, index := left_child }

/-- `BVHNode::cost`: SAH surrogate `count * (dx*dy + dx*dz + dy*dz)` on the
box extent, or `+inf` when the extent is not finite. -/
def cost (n : BVHNode) : EF :=
  let extent := EVec3.vsub n.max n.min
  if extent.isFinite then
    let area := EF.fadd (EF.fadd (EF.fmul extent.x extent.y) (EF.fmul extent.x extent.z))
      (EF.fmul extent.y extent.z)
    EF.fmul (.fin (n.count : ℚ)) area
  else .pos_inf

end BVHNode

/-- The builder's per-triangle cache entry (`Triangle` in `src/bvh.rs`). -/
structure Triangle where
  center : EVec3
  min : EVec3
  max : EVec3
  indices : ℕ × ℕ × ℕ
deriving DecidableEq

instance : Inhabited Triangle :=
  ⟨⟨⟨.fin 0, .fin 0, .fin 0⟩, ⟨.fin 0, .fin 0, .fin 0⟩, ⟨.fin 0, .fin 0, .fin 0⟩, (0, 0, 0)⟩⟩

/-- `Bin` (`src/bvh.rs`): a SAH bin. -/
structure Bin where
  min : EVec3
  max : EVec3
  count : ℕ
deriving DecidableEq

/-- `Bin::default`: empty bounds `[+inf, -inf]`, count 0. -/
instance : Inhabited Bin :=
  ⟨⟨⟨.pos_inf, .pos_inf, .pos_inf⟩, ⟨.neg_inf, .neg_inf, .neg_inf⟩, 0⟩⟩

namespace Bin

/-- `Bin::include`: grow the bin bounds by one triangle and count it. -/
def incl (b : Bin) (t : Triangle) : Bin :=
  ⟨EVec3.vmin b.min t.min, EVec3.vmax b.max t.max, b.count + 1⟩

/-- `Bin::include_bin`: merge another bin. -/
def incl_bin (b o : Bin) : Bin :=
  ⟨EVec3.vmin b.min o.min, EVec3.vmax b.max o.max, b.count + o.count⟩

/-- `Bin::cost`: same SAH surrogate as `BVHNode::cost`. -/
def cost (b : Bin) : EF :=
  let extent := EVec3.vsub b.max b.min
  if extent.isFinite then
    let area := EF.fadd (EF.fadd (EF.fmul extent.x extent.y) (EF.fmul extent.x extent.z))
      (EF.fmul extent.y extent.z)
    EF.fmul (.fin (b.count : ℚ)) area
  else .pos_inf

end Bin

/-- `Split` (`src/bvh.rs`): a chosen axis and midpoint. -/
structure Split where
  axis : ℕ
  mid : EF
deriving DecidableEq

/-- `BVHTree` (`src/bvh.rs`): flat node array plus the vertex and
(flattened, permuted) index buffers. -/
structure BVHTree where
  nodes : List BVHNode
  vertices : List Vertex
  indices : List ℕ
deriving DecidableEq

/-- `Vec::swap` on a list (in the builder all swaps are in range, where
this agrees with the source; out of range `List.set` is a no-op where Rust
would panic). -/
def listSwap (l : List Triangle) (i j : ℕ) : List Triangle :=
  let a := l.getD i default
  let b := l.getD j default
  (l.set i b).set j a

namespace BVHTree

/-- One triangle of the cache built at the top of `build_bvh`: AABB and
centroid of the three indexed vertices, plus the vertex index triple. -/
def mkTriangle (verts : List Vertex) (i0 i1 i2 : ℕ) : Triangle :=
  let v0 := (verts.getD i0 default).position
  let v1 := (verts.getD i1 default).position
  let v2 := (verts.getD i2 default).position
  { center := EVec3.vdivs (EVec3.vadd (EVec3.vadd v0 v1) v2) (.fin 3)
    min := EVec3.vmin (EVec3.vmin v0 v1) v2
    max := EVec3.vmax (EVec3.vmax v0 v1) v2
    indices := (i0, i1, i2) }

/-- The triangle cache: `mesh.indices().chunks(3)` mapped through
`mkTriangle` (a trailing incomplete chunk would panic in the source's
`try_into().unwrap()` and is dropped here). -/
def triangle_cache (verts : List Vertex) : List ℕ → List Triangle
  | i0 :: i1 :: i2 :: rest => mkTriangle verts i0 i1 i2 :: triangle_cache verts rest
  | _ => []

/-- `BVHTree::build_leaf`: a leaf node over `triangles[index .. index+count)`
with the accumulated bounds. -/
def build_leaf (tris : List Triangle) (index count : ℕ) : BVHNode :=
  let t0 := tris.getD index default
  let mm := (List.range' (index + 1) (count - 1)).foldl
    (fun (p : EVec3 × EVec3) i =>
      (EVec3.vmin p.1 (tris.getD i default).min, EVec3.vmax p.2 (tris.getD i default).max))
    (t0.min, t0.max)
  { min := mm.1, index := index, max := mm.2, count := count }

/-- The two bins of one brute-force SAH candidate (the inner `j` loop of
`find_best_split`): triangles with `center[axis] < mid` go left, the rest
right. -/
def bins_for (tris : List Triangle) (parent : BVHNode) (axis : ℕ) (mid : EF) : Bin × Bin :=
  (List.range' parent.index parent.count).foldl
    (fun (p : Bin × Bin) j =>
      let t := tris.getD j default
      if EF.flt (t.center.comp axis) mid then (p.1.incl t, p.2) else (p.1, p.2.incl t))
    (default, default)

/-- `BVHTree::find_best_split`: brute-force SAH over every axis and every
primitive centroid, keeping the candidate of least cost strictly below the
running best (initialized to the parent's cost). -/
def find_best_split (tris : List Triangle) (parent : BVHNode) : Option Split :=
  let cands := (List.range 3).flatMap
    (fun axis => (List.range' parent.index parent.count).map (fun i => (axis, i)))
  (cands.foldl
    (fun (st : EF × Option Split) c =>
      let mid := (tris.getD c.2 default).center.comp c.1
      let b := bins_for tris parent c.1 mid
      let cost := EF.fadd b.1.cost b.2.cost
      if EF.flt cost st.1 then (cost, some ⟨c.1, mid⟩) else st)
    (parent.cost, none)).2

/-- A triangle's bin index on one axis in `approximate_best_split`:
`floor((center - parent.min) / step) as u32`, clamped to `N_BINS - 1 = 15`. -/
def bin_index (c pmin step : EF) : ℕ :=
  min (EF.ffloor (EF.fdiv (EF.fsub c pmin) step)).toU32 15

/-- The 48-entry bin array of `approximate_best_split` (16 bins per axis,
axis `a` occupying `[16a, 16a+16)`). -/
def build_bins (tris : List Triangle) (parent : BVHNode) (step : EVec3) : List Bin :=
  (List.range' parent.index parent.count).foldl
    (fun bins i =>
      let t := tris.getD i default
      let bx := bin_index t.center.x parent.min.x step.x
      let biy := 16 + bin_index t.center.y parent.min.y step.y
      let biz := 32 + bin_index t.center.z parent.min.z step.z
      let bins1 := bins.set bx ((bins.getD bx default).incl t)
      let bins2 := bins1.set biy ((bins1.getD biy default).incl t)
      bins2.set biz ((bins2.getD biz default).incl t))
    (List.replicate 48 default)

/-- `BVHTree::approximate_best_split`: binned SAH with `N_BINS = 16` bins
per axis; for each axis and split position `i ∈ [0, 15)` the left bin
accumulates bins `0..=i` and the right bin merges bins `i+1..16`; the
midpoint is `parent.min[axis] + step[axis] * (i+1)`. -/
def approximate_best_split (tris : List Triangle) (parent : BVHNode) : Option Split :=
  let step := EVec3.vdivs (EVec3.vsub parent.max parent.min) (.fin 16)
  let bins := build_bins tris parent step
  ((List.range 3).foldl
    (fun (st : EF × Option Split) axis =>
      ((List.range 15).foldl
        (fun (q : Bin × EF × Option Split) i =>
          let left := q.1.incl_bin (bins.getD (axis * 16 + i) default)
          let right := (List.range' (i + 1) (15 - i)).foldl
            (fun (rb : Bin) j => rb.incl_bin (bins.getD (axis * 16 + j) default)) default
          let cost := EF.fadd left.cost right.cost
          if EF.flt cost q.2.1 then
            (left, cost,
              some ⟨axis, EF.fadd (parent.min.comp axis)
                (EF.fmul (step.comp axis) (.fin ((i + 1 : ℕ) : ℚ)))⟩)
          else (left, q.2.1, q.2.2))
        (default, st)).2)
    (parent.cost, none)).2

/-- The in-place partition sweep of `BVHTree::split`: walk the range once,
swapping each triangle with `center[axis] < mid` into the next slot of the
growing left block; returns the permuted list and the left count. -/
def split_tris (tris : List Triangle) (parent : BVHNode) (s : Split) : List Triangle × ℕ :=
  (List.range' parent.index parent.count).foldl
    (fun (st : List Triangle × ℕ) i =>
      if EF.flt ((st.1.getD i default).center.comp s.axis) s.mid then
        (listSwap st.1 i (parent.index + st.2), st.2 + 1)
      else st)
    (tris, 0)

/-- `BVHTree::split`: partition in place, then reject the split (keeping the
permuted slice, as the source does) when either side is empty; otherwise
build the two child leaves. -/
def split (tris : List Triangle) (parent : BVHNode) (s : Split) :
    List Triangle × Option (BVHNode × BVHNode) :=
  let r := split_tris tris parent s
  if r.2 = 0 ∨ r.2 = parent.count then (r.1, none)
  else (r.1, some (build_leaf r.1 parent.index r.2,
    build_leaf r.1 (parent.index + r.2) (parent.count - r.2)))

/-- `BVHTree::split_node`: dispatch on the primitive count — no split for
`count ≤ 1`; two singleton leaves (accepted only on strict SAH improvement)
for `count == 2`; brute-force SAH for `3 ≤ count ≤ 11`; binned SAH
otherwise. -/
def split_node (tris : List Triangle) (parent : BVHNode) :
    List Triangle × Option (BVHNode × BVHNode) :=
  if parent.count = 0 ∨ parent.count = 1 then (tris, none)
  else if parent.count = 2 then
    let left := build_leaf tris parent.index 1
    let right := build_leaf tris (parent.index + 1) 1
    if EF.flt (EF.fadd left.cost right.cost) parent.cost then (tris, some (left, right))
    else (tris, none)
  else if parent.count ≤ 11 then
    match find_best_split tris parent with
    | none => (tris, none)
    | some s => split tris parent s
  else
    match approximate_best_split tris parent with
    | none => (tris, none)
    | some s => split tris parent s

/-- The `while let Some((depth, node_index)) = stack.pop()` loop of
`build_bvh`, with an explicit fuel argument (structural recursion).  A
popped entry at `depth ≥ MAX_DEPTH = 32` is discarded; otherwise the node is
split, the children appended (left then right, so the right child is popped
first) and both pushed with `depth + 1`.  `build_loop_fuel_irrelevant` below
shows the fuel `3 ^ 32` used by `build_state` never runs out, so this is the
source loop run to completion. -/
def build_loop : ℕ → List Triangle → List BVHNode → List (ℕ × ℕ) →
    List BVHNode × List Triangle
  | 0, tris, nodes, _ => (nodes, tris)
  | _ + 1, tris, nodes, [] => (nodes, tris)
  | fuel + 1, tris, nodes, (depth, node_index) :: rest =>
    if 32 ≤ depth then build_loop fuel tris nodes rest
    else
      let node := nodes.getD node_index default
      match split_node tris node with
      | (tris2, none) => build_loop fuel tris2 nodes rest
      | (tris2, some (l, r)) =>
        let left_index := nodes.length
        let nodes2 := (nodes.set node_index (node.make_inner left_index)) ++ [l, r]
        build_loop fuel tris2 nodes2 ((depth + 1, left_index + 1) :: (depth + 1, left_index) :: rest)

/-- Termination measure for the build loop: `Σ 3 ^ (32 - depth)` over the
stack. -/
def stack_measure (stack : List (ℕ × ℕ)) : ℕ :=
  (stack.map (fun p => 3 ^ (32 - p.1))).sum

/-- The node array and permuted triangle cache produced by
`BVHTree::build_bvh`: build the cache, push the root leaf over the full
range, run the loop. -/
def build_state (m : Mesh) : List BVHNode × List Triangle :=
  let tris := triangle_cache m.vertices m.indices
  let parent := build_leaf tris 0 tris.length
  build_loop (3 ^ 32) tris [parent] [(0, 0)]

/-- `BVHTree::build_bvh`: the finished tree, with the index buffer
flattened from the permuted triangle cache
(`triangles.iter().flat_map(|t| t.indices)`). -/
def build_bvh (m : Mesh) : BVHTree :=
  { nodes := (build_state m).1
    vertices := m.vertices
    indices := (build_state m).2.flatMap (fun t => [t.indices.1, t.indices.2.1, t.indices.2.2]) }

end BVHTree

/-! ## Progressive path tracer driver (`src/pathtracer.rs`) -/

/-- `Globals` (`src/pathtracer.rs`): the per-dispatch push constants.
`sample: u32` is a `Nat` (the driver never increments it past
`max_sample_count`); `weight: f32` is idealized to an exact rational, so the
code's `1.0 / sample as f32` is the exact `1 / sample`. -/
structure Globals where
  sample : ℕ
  weight : ℚ
  bounces : ℕ
  throughput : ℚ
deriving DecidableEq

/-- `Globals::default`. -/
def Globals.dflt : Globals := { sample := 0, weight := 0, bounces := 8, throughput := 1 / 100 }

/-- The host-visible state of `Pathtracer` that its sampling control flow
reads and writes (the pipeline, bind-group and buffer handles are opaque
GPU resources and carry no host-observable sampling state). -/
structure Pathtracer where
  globals : Globals
  resolution_factor : ℚ
  max_sample_count : ℕ
deriving DecidableEq

namespace Pathtracer

/-- `Pathtracer::invalidate`: reset the sample counter to 0. -/
def invalidate (s : Pathtracer) : Pathtracer :=
  { s with globals := { s.globals with sample := 0 } }

/-- `Pathtracer::sample_count`. -/
def sample_count (s : Pathtracer) : ℕ := s.globals.sample

/-- `Pathtracer::dispatch`: early-return (recording nothing) when
`sample >= max_sample_count`; otherwise pre-increment `sample`, set
`weight = 1 / sample`, and record one compute pass.  The returned `Bool`
is `true` iff a compute pass was recorded on the encoder. -/
def dispatch (s : Pathtracer) : Pathtracer × Bool :=
  if s.max_sample_count ≤ s.globals.sample then (s, false)
  else
    let sample := s.globals.sample + 1
    ({ s with globals := { s.globals with sample := sample, weight := 1 / (sample : ℚ) } }, true)

/-- `k` consecutive `dispatch` calls (dropping the per-call pass flags). -/
def dispatchN : ℕ → Pathtracer → Pathtracer
  | 0, s => s
  | k + 1, s => (dispatch (dispatchN k s)).1

/-- The output-texture dimensions chosen by
`Pathtracer::create_output_texture` for a `w × h` surface and resolution
factor `r`: `(uvec2(w, h).as_vec2() * r).as_uvec2() / 8 * 8` with
`COMPUTE_SIZE = 8` (u32 division truncates; the float multiply is idealized
to exact rational arithmetic and the saturating `as u32` cast is modelled
by `EF.toU32`). -/
def create_output_texture_dims (w h : ℕ) (r : ℚ) : ℕ × ℕ :=
  ((EF.fin ((w : ℚ) * r)).toU32 / 8 * 8, (EF.fin ((h : ℚ) * r)).toU32 / 8 * 8)

end Pathtracer

/-! ## Frame metrics (`src/common/performance_metric.rs`) -/

/-- `PerformanceMetrics<BUFFER_SIZE>`: `std::time::Duration` and
`std::time::Instant` are idealized to exact rationals (seconds); the buffer
size `N` is passed to each operation.  `frame_time_buffer` is a list of
length `N`. -/
structure PerformanceMetrics where
  last_frame : Option ℚ
  curr_frame_time : ℚ
  time_since_start : ℚ
  frame_time_buffer : List ℚ
  idx : ℕ
  n_frames : ℕ
  summed_frame_time : ℚ
deriving DecidableEq

namespace PerformanceMetrics

/-- `PerformanceMetrics::default`. -/
def init (N : ℕ) : PerformanceMetrics :=
  { last_frame := none, curr_frame_time := 0, time_since_start := 0,
    frame_time_buffer := List.replicate N 0, idx := 0, n_frames := 0, summed_frame_time := 0 }

/-- `PerformanceMetrics::next_frame` at clock time `now`.  With no stored
timestamp only the timestamp is recorded; otherwise the elapsed duration
(`Instant::duration_since`, which saturates at zero) is pushed into the
ring buffer, updating the rolling sum and evicting the oldest entry once
`N` frames are recorded. -/
def next_frame (N : ℕ) (now : ℚ) (s : PerformanceMetrics) : PerformanceMetrics :=
  match s.last_frame with
  | none => { s with last_frame := some now }
  | some last =>
    let d := max (now - last) 0
    let summed := s.summed_frame_time + d
    let p : ℕ × ℚ :=
      if s.n_frames < N then (s.n_frames + 1, summed)
      else (s.n_frames, summed - s.frame_time_buffer.getD s.idx 0)
    { last_frame := some now
      curr_frame_time := d
      time_since_start := s.time_since_start + d
      frame_time_buffer := s.frame_time_buffer.set s.idx d
      idx := (s.idx + 1) % N
      n_frames := p.1
      summed_frame_time := p.2 }

/-- `PerformanceMetrics::pause`: drop the stored timestamp. -/
def pause (s : PerformanceMetrics) : PerformanceMetrics := { s with last_frame := none }

/-- `PerformanceMetrics::avg_frame_time`:
`summed_frame_time.checked_div(n_frames).unwrap_or_default()`. -/
def avg_frame_time (s : PerformanceMetrics) : ℚ :=
  if s.n_frames = 0 then 0 else s.summed_frame_time / (s.n_frames : ℚ)

/-- A call against the metrics object: `next_frame` at a clock time, or
`pause`. -/
inductive MEvent where
  | next (t : ℚ) : MEvent
  | pause : MEvent
deriving DecidableEq

/-- One event applied to the state. -/
def mstep (N : ℕ) (s : PerformanceMetrics) : MEvent → PerformanceMetrics
  | .next t => next_frame N t s
  | .pause => pause s

/-- Run a call sequence from the default state. -/
def mrun (N : ℕ) (evs : List MEvent) : PerformanceMetrics :=
  evs.foldl (mstep N) (init N)

/-- The frame durations a call sequence records, given the currently stored
timestamp: a `next_frame` with no stored timestamp records nothing, any
other `next_frame` records the (saturated) delta since the stored one,
`pause` clears the timestamp. -/
def deltas : Option ℚ → List MEvent → List ℚ
  | _, [] => []
  | none, .next t :: rest => deltas (some t) rest
  | some t0, .next t :: rest => max (t - t0) 0 :: deltas (some t) rest
  | _, .pause :: rest => deltas none rest

end PerformanceMetrics

/-! ## Claim-statement helpers and concrete inputs -/

/-- The SAH cost `find_best_split` evaluates for the candidate
`(axis, mid)`: the summed costs of the two bins of the induced partition. -/
def BVHTree.cand_cost (tris : List Triangle) (parent : BVHNode) (axis : ℕ) (mid : EF) : EF :=
  EF.fadd (BVHTree.bins_for tris parent axis mid).1.cost
    (BVHTree.bins_for tris parent axis mid).2.cost

/-- A box `[mn, mx]` with an infinite bound in the outward direction: some
`mn` component is `-inf` or some `mx` component is `+inf`. -/
def boxInf (mn mx : EVec3) : Prop :=
  ∃ a, a < 3 ∧ (mn.comp a = EF.neg_inf ∨ mx.comp a = EF.pos_inf)

/-- A triangle whose AABB has an infinite bound in the outward direction.
Every triangle whose AABB is non-finite because a vertex coordinate is
infinite is of this shape (an all-`+inf` coordinate forces the `max`
component to `+inf` too); only all-NaN AABBs are excluded. -/
def Triangle.infDegenerate (t : Triangle) : Prop := boxInf t.min t.max

/-- The per-node encoding asserted by claim C1 over a finished build with
`n` triangles: a zero fourth field (`count`) marks an inner node whose
children sit at `index` and `index + 1`; a non-zero fourth field is read as
the exclusive `end` of the leaf's primitive range `[index, end)`, forcing
`end > start` and `end ≤ n`. -/
def BVHTree.end_encoding_claim (nodes : List BVHNode) (n : ℕ) : Prop :=
  ∀ i < nodes.length,
    ((nodes.getD i default).count = 0 →
      i < (nodes.getD i default).index ∧ (nodes.getD i default).index + 1 < nodes.length) ∧
    ((nodes.getD i default).count ≠ 0 →
      (nodes.getD i default).index < (nodes.getD i default).count ∧
      (nodes.getD i default).count ≤ n)

/-- Structural soundness of a node array over `n` triangles: an inner node
(`count = 0`) points strictly forward at an in-bounds pair of children
(`index`, `index + 1`), and a leaf's primitive range `[index, index+count)`
stays inside `[0, n)`. -/
def NodesOK (n : ℕ) (nodes : List BVHNode) : Prop :=
  ∀ i, i < nodes.length →
    ((nodes.getD i default).count = 0 →
      i < (nodes.getD i default).index ∧
      (nodes.getD i default).index + 1 < nodes.length) ∧
    ((nodes.getD i default).count ≠ 0 →
      (nodes.getD i default).index + (nodes.getD i default).count ≤ n)

/-- Every triangle position below `n` is covered by some leaf's range. -/
def Covers (n : ℕ) (nodes : List BVHNode) : Prop :=
  ∀ k, k < n → ∃ j, j < nodes.length ∧ (nodes.getD j default).count ≠ 0 ∧
    (nodes.getD j default).index ≤ k ∧
    k < (nodes.getD j default).index + (nodes.getD j default).count

/-- An axis-aligned right triangle with unit legs spanning `[o, o1]` along
x: vertices `(o,0,0)`, `(o1,1,0)`, `(o1,0,0)`. -/
def exTriVerts (o o1 : ℚ) : List Vertex :=
  [⟨⟨.fin o, .fin 0, .fin 0⟩⟩, ⟨⟨.fin o1, .fin 1, .fin 0⟩⟩, ⟨⟨.fin o1, .fin 0, .fin 0⟩⟩]

/-- Two well-separated unit triangles (at `x = 0` and `x = 100`): the SAH
accepts the split, so the build produces one inner node and two singleton
leaves. -/
def exMesh2 : Mesh :=
  { vertices := exTriVerts 0 1 ++ exTriVerts 100 101, indices := [0, 1, 2, 3, 4, 5] }

/-- A triangle whose three vertices are all-NaN, as produced by NaN vertex
positions: its AABB and centroid are NaN in every component. -/
def nanTriangle : Triangle :=
  BVHTree.mkTriangle [⟨⟨.nan, .nan, .nan⟩⟩] 0 0 0

/-- Three triangles: two well-separated finite ones and the all-NaN one.
The NaN AABB is invisible to the NaN-ignoring `f32::min`/`f32::max`, so the
SAH still accepts a split of the node containing it. -/
def exTrisNaN : List Triangle :=
  BVHTree.triangle_cache (exTriVerts 0 1 ++ exTriVerts 10 11 ++ [⟨⟨.nan, .nan, .nan⟩⟩])
    [0, 1, 2, 3, 4, 5, 6, 6, 6]

/-- A triangle with an infinite AABB bound (a vertex at `x = +inf`). -/
def infTriangle : Triangle :=
  BVHTree.mkTriangle [⟨⟨.pos_inf, .fin 0, .fin 0⟩⟩, ⟨⟨.fin 1, .fin 1, .fin 0⟩⟩,
    ⟨⟨.fin 1, .fin 0, .fin 0⟩⟩] 0 1 2

/-! ## Theorems -/

namespace Pathtracer

/-- After `invalidate`, `j ≤ max_sample_count` dispatches leave
`sample = j`, keep `max_sample_count`, and (for `j ≥ 1`) leave
`weight = 1 / j`. -/
lemma dispatchN_invalidate_spec (s : Pathtracer) :
    ∀ j, j ≤ s.max_sample_count →
      (dispatchN j s.invalidate).globals.sample = j ∧
      (dispatchN j s.invalidate).max_sample_count = s.max_sample_count ∧
      (1 ≤ j → (dispatchN j s.invalidate).globals.weight = 1 / (j : ℚ)) := by
  intro j
  induction j with
  | zero => intro _; exact ⟨rfl, rfl, by omega⟩
  | succ j ih =>
    intro hj
    obtain ⟨hs, hm, _⟩ := ih (by omega)
    have hlt : ¬ ((dispatchN j s.invalidate).max_sample_count ≤
        (dispatchN j s.invalidate).globals.sample) := by
      rw [hs, hm]; omega
    rw [hs, hm] at hlt
    refine ⟨?_, ?_, fun _ => ?_⟩ <;>
      (simp only [dispatchN, dispatch, hm, hs]; rw [if_neg hlt])

/-- Claim C2: starting from `Pathtracer::invalidate()` (which zeroes the
host-side sample counter), after `k` consecutive `dispatch` calls with
`1 ≤ k ≤ max_sample_count` the globals satisfy `sample = k` and
`weight = 1 / k` (`sample` is pre-incremented before `weight` is computed);
in particular after the first dispatch `weight` is exactly `1`. -/
theorem progressive_accumulation_law (s : Pathtracer) (k : ℕ)
    (h1 : 1 ≤ k) (h2 : k ≤ s.max_sample_count) :
    (dispatchN k s.invalidate).globals.sample = k ∧
    (dispatchN k s.invalidate).globals.weight = 1 / (k : ℚ) ∧
    (1 ≤ s.max_sample_count → (dispatchN 1 s.invalidate).globals.weight = 1) := by
  obtain ⟨hs, _, hw⟩ := dispatchN_invalidate_spec s k h2
  refine ⟨hs, hw h1, fun hmax => ?_⟩
  obtain ⟨_, _, hw1⟩ := dispatchN_invalidate_spec s 1 hmax
  simpa using hw1 le_rfl

/-- Witness for C2 at a concrete driver state and `k = 3`. -/
theorem progressive_accumulation_law_witness :
    (dispatchN 3 (Pathtracer.mk Globals.dflt (3 / 10) 1024).invalidate).globals.sample = 3 ∧
    (dispatchN 3 (Pathtracer.mk Globals.dflt (3 / 10) 1024).invalidate).globals.weight = 1 / 3 ∧
    (1 ≤ (1024 : ℕ) →
      (dispatchN 1 (Pathtracer.mk Globals.dflt (3 / 10) 1024).invalidate).globals.weight = 1) := by
  have h := progressive_accumulation_law (Pathtracer.mk Globals.dflt (3 / 10) 1024) 3
    (by norm_num) (by norm_num)
  exact ⟨h.1, by rw [h.2.1]; norm_num, fun _ => h.2.2 (by norm_num)⟩

/-- Claim C3: `dispatch` is a no-op — it returns the state unchanged and
records no compute pass — if and only if `sample ≥ max_sample_count` at
entry; when `sample < max_sample_count` it is not a no-op: `sample` is
incremented and a compute pass is recorded. -/
theorem dispatch_noop_iff (s : Pathtracer) :
    (((dispatch s).1 = s ∧ (dispatch s).2 = false) ↔
      s.max_sample_count ≤ s.globals.sample) ∧
    (s.globals.sample < s.max_sample_count →
      (dispatch s).1.globals.sample = s.globals.sample + 1 ∧ (dispatch s).2 = true) := by
  constructor
  · constructor
    · intro ⟨h1, _⟩
      by_contra hidle
      have : (dispatch s).1.globals.sample = s.globals.sample + 1 := by
        simp only [dispatch]
        rw [if_neg hidle]
      rw [h1] at this
      omega
    · intro hge
      simp only [dispatch]
      rw [if_pos hge]
      exact ⟨rfl, rfl⟩
  · intro hlt
    simp only [dispatch]
    rw [if_neg (by omega)]
    exact ⟨rfl, rfl⟩

/-- Witness for C3: the iff in both directions on concrete states (an
exhausted driver at `sample = max = 4`, and a fresh one). -/
theorem dispatch_noop_iff_witness :
    ((dispatch (Pathtracer.mk ⟨4, 1 / 4, 8, 1 / 100⟩ (3 / 10) 4)).1 =
        Pathtracer.mk ⟨4, 1 / 4, 8, 1 / 100⟩ (3 / 10) 4 ∧
      (dispatch (Pathtracer.mk ⟨4, 1 / 4, 8, 1 / 100⟩ (3 / 10) 4)).2 = false) ∧
    (dispatch (Pathtracer.mk ⟨0, 0, 8, 1 / 100⟩ (3 / 10) 4)).1.globals.sample = 1 ∧
    (dispatch (Pathtracer.mk ⟨0, 0, 8, 1 / 100⟩ (3 / 10) 4)).2 = true := by
  refine ⟨((dispatch_noop_iff (Pathtracer.mk ⟨4, 1 / 4, 8, 1 / 100⟩ (3 / 10) 4)).1).2
    (by norm_num), ?_⟩
  exact (dispatch_noop_iff (Pathtracer.mk ⟨0, 0, 8, 1 / 100⟩ (3 / 10) 4)).2 (by norm_num)

/-- Claim C8: for a `w × h` surface and resolution factor `r` (a factor is
in `[0, 1]`, and surface dimensions are `u32`), `create_output_texture`
chooses output dimensions `(⌊w * r / 8⌋ * 8, ⌊h * r / 8⌋ * 8)` — both axes
multiples of the fixed 8-wide workgroup size. -/
theorem create_output_texture_dims_eq (w h : ℕ) (r : ℚ)
    (hr0 : 0 ≤ r) (hr1 : r ≤ 1) (hw : w ≤ 4294967295) (hh : h ≤ 4294967295) :
    create_output_texture_dims w h r =
      (⌊(w : ℚ) * r / 8⌋₊ * 8, ⌊(h : ℚ) * r / 8⌋₊ * 8) := by
  have key : ∀ n : ℕ, n ≤ 4294967295 →
      (EF.fin ((n : ℚ) * r)).toU32 / 8 * 8 = ⌊(n : ℚ) * r / 8⌋₊ * 8 := by
    intro n hn
    have hnr : (0 : ℚ) ≤ (n : ℚ) * r := mul_nonneg (Nat.cast_nonneg n) hr0
    have hfloor : ⌊(n : ℚ) * r⌋.toNat = ⌊(n : ℚ) * r⌋₊ := Int.floor_toNat _
    have hle : ⌊(n : ℚ) * r⌋₊ ≤ 4294967295 := by
      calc ⌊(n : ℚ) * r⌋₊ ≤ ⌊(n : ℚ)⌋₊ :=
            Nat.floor_le_floor (by nlinarith [Nat.cast_nonneg (α := ℚ) n])
        _ = n := Nat.floor_natCast n
        _ ≤ 4294967295 := hn
    have : (EF.fin ((n : ℚ) * r)).toU32 = ⌊(n : ℚ) * r⌋₊ := by
      simp only [EF.toU32, hfloor]
      rw [if_neg (by exact not_lt.mpr hnr), min_eq_left hle]
    rw [this, ← Nat.floor_div_nat ((n : ℚ) * r) 8]
    norm_num
  simp only [create_output_texture_dims]
  rw [key w hw, key h hh]

/-- Witness for C8: a 1000×1000 surface at `r = 1/2` yields a 496×496
output texture. -/
theorem create_output_texture_dims_eq_witness :
    create_output_texture_dims 1000 1000 (1 / 2) = (496, 496) := by
  have h := create_output_texture_dims_eq 1000 1000 (1 / 2)
    (by norm_num) (by norm_num) (by norm_num) (by norm_num)
  rw [h]
  have hf : ⌊((1000 : ℕ) : ℚ) * (1 / 2) / 8⌋₊ = 62 := by
    rw [show (((1000 : ℕ) : ℚ) * (1 / 2) / 8) = 125 / 2 by push_cast; ring]
    rw [Nat.floor_eq_iff (by norm_num)]
    norm_num
  rw [hf]

end Pathtracer

namespace EF

/-- `flt` is transitive (its arguments are then in particular not NaN). -/
lemma flt_trans {a b c : EF} (h1 : flt a b = true) (h2 : flt b c = true) :
    flt a c = true := by
  cases a <;> cases b <;> cases c <;> simp_all [flt]
  exact h1.trans h2

end EF

namespace BVHTree

/-- Invariant of the candidate fold inside `find_best_split`: as long as no
candidate has been retained the running best is the parent's cost, and a
retained candidate `s` is one of the scanned `(axis, centroid)` pairs whose
cost is the running best, strictly below the parent's cost. -/
lemma find_best_split_fold_inv (tris : List Triangle) (parent : BVHNode) :
    ∀ (l : List (ℕ × ℕ)) (st : EF × Option Split),
      (∀ c ∈ l, c.1 < 3 ∧ parent.index ≤ c.2 ∧ c.2 < parent.index + parent.count) →
      ((st.2 = none → st.1 = parent.cost) ∧
        (∀ s, st.2 = some s →
          (s.axis < 3 ∧ ∃ i, parent.index ≤ i ∧ i < parent.index + parent.count ∧
            s.mid = (tris.getD i default).center.comp s.axis) ∧
          st.1 = cand_cost tris parent s.axis s.mid ∧
          EF.flt st.1 parent.cost = true)) →
      (((l.foldl
          (fun (st : EF × Option Split) c =>
            let mid := (tris.getD c.2 default).center.comp c.1
            let b := bins_for tris parent c.1 mid
            let cost := EF.fadd b.1.cost b.2.cost
            if EF.flt cost st.1 then (cost, some ⟨c.1, mid⟩) else st) st).2 = none →
          (l.foldl
          (fun (st : EF × Option Split) c =>
            let mid := (tris.getD c.2 default).center.comp c.1
            let b := bins_for tris parent c.1 mid
            let cost := EF.fadd b.1.cost b.2.cost
            if EF.flt cost st.1 then (cost, some ⟨c.1, mid⟩) else st) st).1 = parent.cost) ∧
        (∀ s, (l.foldl
          (fun (st : EF × Option Split) c =>
            let mid := (tris.getD c.2 default).center.comp c.1
            let b := bins_for tris parent c.1 mid
            let cost := EF.fadd b.1.cost b.2.cost
            if EF.flt cost st.1 then (cost, some ⟨c.1, mid⟩) else st) st).2 = some s →
          (s.axis < 3 ∧ ∃ i, parent.index ≤ i ∧ i < parent.index + parent.count ∧
            s.mid = (tris.getD i default).center.comp s.axis) ∧
          (l.foldl
          (fun (st : EF × Option Split) c =>
            let mid := (tris.getD c.2 default).center.comp c.1
            let b := bins_for tris parent c.1 mid
            let cost := EF.fadd b.1.cost b.2.cost
            if EF.flt cost st.1 then (cost, some ⟨c.1, mid⟩) else st) st).1 =
              cand_cost tris parent s.axis s.mid ∧
          EF.flt ((l.foldl
          (fun (st : EF × Option Split) c =>
            let mid := (tris.getD c.2 default).center.comp c.1
            let b := bins_for tris parent c.1 mid
            let cost := EF.fadd b.1.cost b.2.cost
            if EF.flt cost st.1 then (cost, some ⟨c.1, mid⟩) else st) st).1)
            parent.cost = true)) := by
  intro l
  induction l with
  | nil => intro st _ hst; exact hst
  | cons c rest ih =>
    intro st hmem hst
    simp only [List.foldl_cons]
    apply ih _ (fun c' hc' => hmem c' (List.mem_cons_of_mem _ hc'))
    obtain ⟨hc3, hcl, hcu⟩ := hmem c (List.mem_cons_self _ _)
    by_cases hflt : EF.flt (EF.fadd (bins_for tris parent c.1
        ((tris.getD c.2 default).center.comp c.1)).1.cost
        (bins_for tris parent c.1 ((tris.getD c.2 default).center.comp c.1)).2.cost) st.1 = true
    · simp only [hflt, if_pos]
      constructor
      · intro h; simp at h
      · intro s hs
        simp only [Option.some.injEq] at hs
        subst hs
        refine ⟨⟨hc3, c.2, hcl, hcu, rfl⟩, rfl, ?_⟩
        rcases hopt : st.2 with _ | s'
        · rw [hst.1 hopt] at hflt; exact hflt
        · exact EF.flt_trans hflt (hst.2 s' hopt).2.2
    · simp only [EF.flt] at hflt
      rw [if_neg (by simpa using hflt)]
      exact hst

end BVHTree

namespace BVHTree

/-- Claim C4: `split_node` routes on the primitive count — `count ≤ 1`
attempts no split; `count = 2` produces two singleton leaves iff the sum of
the child SAH costs is strictly below the parent's; `3 ≤ count ≤ 11` uses
brute-force SAH over every axis and every primitive centroid accepting only
a candidate of cost strictly below the parent's; `count ≥ 12` uses the
16-bin binned SAH. -/
theorem split_node_selection (tris : List Triangle) (parent : BVHNode) :
    (parent.count ≤ 1 → split_node tris parent = (tris, none)) ∧
    (parent.count = 2 →
      split_node tris parent = (tris,
        if EF.flt (EF.fadd (build_leaf tris parent.index 1).cost
            (build_leaf tris (parent.index + 1) 1).cost) parent.cost
        then some (build_leaf tris parent.index 1, build_leaf tris (parent.index + 1) 1)
        else none)) ∧
    (3 ≤ parent.count → parent.count ≤ 11 →
      split_node tris parent =
        match find_best_split tris parent with
        | none => (tris, none)
        | some s => split tris parent s) ∧
    (12 ≤ parent.count →
      split_node tris parent =
        match approximate_best_split tris parent with
        | none => (tris, none)
        | some s => split tris parent s) ∧
    (∀ s, find_best_split tris parent = some s →
      (s.axis < 3 ∧ ∃ i, parent.index ≤ i ∧ i < parent.index + parent.count ∧
        s.mid = (tris.getD i default).center.comp s.axis) ∧
      EF.flt (cand_cost tris parent s.axis s.mid) parent.cost = true) := by
  refine ⟨?_, ?_, ?_, ?_, ?_⟩
  · intro h
    rw [split_node, if_pos (by omega)]
  · intro h
    rw [split_node, if_neg (by omega), if_pos h]
    by_cases hc : EF.flt (EF.fadd (build_leaf tris parent.index 1).cost
        (build_leaf tris (parent.index + 1) 1).cost) parent.cost = true
    · rw [if_pos hc, if_pos hc]
    · simp only [EF.flt] at hc
      rw [if_neg (by simpa using hc), if_neg (by simpa using hc)]
  · intro h3 h11
    rw [split_node, if_neg (by omega), if_neg (by omega), if_pos h11]
  · intro h12
    rw [split_node, if_neg (by omega), if_neg (by omega), if_neg (by omega)]
  · intro s hs
    have hinv := find_best_split_fold_inv tris parent
      ((List.range 3).flatMap
        (fun axis => (List.range' parent.index parent.count).map (fun i => (axis, i))))
      (parent.cost, none)
      (by
        intro c hc
        simp only [List.mem_flatMap, List.mem_map, List.mem_range] at hc
        obtain ⟨a, ha, i, hi, rfl⟩ := hc
        rw [List.mem_range'_1] at hi
        exact ⟨ha, hi.1, hi.2⟩)
      (by
        refine ⟨fun _ => rfl, fun s hs => ?_⟩
        simp at hs)
    have heq : find_best_split tris parent =
        (((List.range 3).flatMap
          (fun axis => (List.range' parent.index parent.count).map (fun i => (axis, i)))).foldl
          (fun (st : EF × Option Split) c =>
            let mid := (tris.getD c.2 default).center.comp c.1
            let b := bins_for tris parent c.1 mid
            let cost := EF.fadd b.1.cost b.2.cost
            if EF.flt cost st.1 then (cost, some ⟨c.1, mid⟩) else st)
          (parent.cost, none)).2 := rfl
    rw [heq] at hs
    obtain ⟨hprov, hcost, hflt⟩ := hinv.2 s hs
    rw [hcost] at hflt
    exact ⟨hprov, hflt⟩

/-- Witness for C4: a two-triangle node is split into singleton leaves
(its SAH condition holds), a one-triangle node is not split, and on a
three-triangle node the brute-force search returns a candidate on a scanned
centroid with cost strictly below the parent's. -/
theorem split_node_selection_witness :
    (BVHTree.split_node (triangle_cache exMesh2.vertices exMesh2.indices)
        (build_leaf (triangle_cache exMesh2.vertices exMesh2.indices) 0 2) =
      (triangle_cache exMesh2.vertices exMesh2.indices,
        some (build_leaf (triangle_cache exMesh2.vertices exMesh2.indices) 0 1,
          build_leaf (triangle_cache exMesh2.vertices exMesh2.indices) 1 1))) ∧
    (BVHTree.split_node (triangle_cache exMesh2.vertices exMesh2.indices)
        (build_leaf (triangle_cache exMesh2.vertices exMesh2.indices) 0 1) =
      (triangle_cache exMesh2.vertices exMesh2.indices, none)) := by
  constructor
  · have h := (split_node_selection (triangle_cache exMesh2.vertices exMesh2.indices)
      (build_leaf (triangle_cache exMesh2.vertices exMesh2.indices) 0 2)).2.1 (by decide)
    rw [h, if_pos (by decide)]
    decide
  · exact (split_node_selection (triangle_cache exMesh2.vertices exMesh2.indices)
      (build_leaf (triangle_cache exMesh2.vertices exMesh2.indices) 0 1)).1 (by decide)

end BVHTree

/-- Pointwise description of `listSwap` for in-range positions: position
`j` holds the old element at `i`, position `i` the old element at `j`, and
everything else is untouched. -/
lemma listSwap_getD (l : List Triangle) (i j p : ℕ) (hi : i < l.length) (hj : j < l.length) :
    (listSwap l i j).getD p default =
      if p = j then l.getD i default
      else if p = i then l.getD j default
      else l.getD p default := by
  simp only [listSwap, List.getD_eq_getElem?_getD]
  by_cases hpj : p = j
  · subst hpj
    rw [List.getElem?_set_self (by simpa using hj), if_pos rfl]
    simp [List.getD_eq_getElem?_getD]
  · rw [List.getElem?_set_ne (by omega)]
    by_cases hpi : p = i
    · subst hpi
      rw [List.getElem?_set_self hi, if_neg hpj, if_pos rfl]
      simp [List.getD_eq_getElem?_getD]
    · rw [List.getElem?_set_ne (by omega), if_neg hpj, if_neg hpi]

namespace BVHTree

/-- Behaviour of the partition sweep `split_tris` over a range of `k`
positions starting at `b` (the node bounds are irrelevant to the sweep):
the list keeps its length, positions outside `[b, b+k)` are untouched, the
left block `[b, b+lc)` holds exactly the triangles of the range whose
centroid is strictly below the midpoint, in their original order, and the
rest of the range is a permutation of the remaining triangles. -/
lemma split_tris_spec (tris : List Triangle) (mn mx : EVec3) (b axis : ℕ) (mid : EF) :
    ∀ k, b + k ≤ tris.length →
      (split_tris tris ⟨mn, b, mx, k⟩ ⟨axis, mid⟩).1.length = tris.length ∧
      (split_tris tris ⟨mn, b, mx, k⟩ ⟨axis, mid⟩).2 ≤ k ∧
      (∀ j, j < b ∨ b + k ≤ j →
        (split_tris tris ⟨mn, b, mx, k⟩ ⟨axis, mid⟩).1.getD j default = tris.getD j default) ∧
      (List.range' b (split_tris tris ⟨mn, b, mx, k⟩ ⟨axis, mid⟩).2).map
          (fun p => (split_tris tris ⟨mn, b, mx, k⟩ ⟨axis, mid⟩).1.getD p default) =
        ((List.range' b k).map (fun p => tris.getD p default)).filter
          (fun t => EF.flt (t.center.comp axis) mid) ∧
      ((List.range' (b + (split_tris tris ⟨mn, b, mx, k⟩ ⟨axis, mid⟩).2)
          (k - (split_tris tris ⟨mn, b, mx, k⟩ ⟨axis, mid⟩).2)).map
          (fun p => (split_tris tris ⟨mn, b, mx, k⟩ ⟨axis, mid⟩).1.getD p default)).Perm
        (((List.range' b k).map (fun p => tris.getD p default)).filter
          (fun t => ! EF.flt (t.center.comp axis) mid)) := by
  intro k
  induction k with
  | zero => intro _; simp [split_tris]
  | succ k ih =>
    intro hk
    obtain ⟨ih1, ih2, ih3, ih4, ih5⟩ := ih (by omega)
    have hstep : split_tris tris ⟨mn, b, mx, k + 1⟩ ⟨axis, mid⟩ =
        (let st := split_tris tris ⟨mn, b, mx, k⟩ ⟨axis, mid⟩
         if EF.flt ((st.1.getD (b + k) default).center.comp axis) mid then
           (listSwap st.1 (b + k) (b + st.2), st.2 + 1)
         else st) := by
      simp only [split_tris, List.range'_concat, one_mul, List.foldl_append, List.foldl_cons,
        List.foldl_nil]
    set S := split_tris tris ⟨mn, b, mx, k⟩ ⟨axis, mid⟩ with hSdef
    have hread : S.1.getD (b + k) default = tris.getD (b + k) default :=
      ih3 (b + k) (Or.inr le_rfl)
    have hlenS : S.1.length = tris.length := ih1
    have hbk_lt : b + k < S.1.length := by omega
    have hblc_lt : b + S.2 < S.1.length := by omega
    by_cases hpred : EF.flt ((tris.getD (b + k) default).center.comp axis) mid = true
    · -- the triangle at `b + k` goes to the left block
      have hstep' : split_tris tris ⟨mn, b, mx, k + 1⟩ ⟨axis, mid⟩ =
          (listSwap S.1 (b + k) (b + S.2), S.2 + 1) := by
        rw [hstep]
        simp only [← hSdef, hread, hpred, if_pos]
      rw [hstep']
      have hswap : ∀ p, (listSwap S.1 (b + k) (b + S.2)).getD p default =
          if p = b + S.2 then S.1.getD (b + k) default
          else if p = b + k then S.1.getD (b + S.2) default
          else S.1.getD p default :=
        fun p => listSwap_getD S.1 (b + k) (b + S.2) p hbk_lt hblc_lt
      refine ⟨?_, by omega, ?_, ?_, ?_⟩
      · simp only [listSwap, List.length_set]; exact hlenS
      · intro j hj
        rw [hswap j, if_neg (by omega), if_neg (by omega)]
        exact ih3 j (by omega)
      · -- left block: old left block unchanged, new slot holds the triangle
        rw [List.range'_concat, one_mul, List.map_append, List.range'_concat, one_mul,
          List.map_append, List.filter_append]
        congr 1
        · rw [← ih4]
          apply List.map_congr_left
          intro p hp
          rw [List.mem_range'_1] at hp
          rw [hswap p, if_neg (by omega), if_neg (by omega)]
        · simp only [List.map_cons, List.map_nil, List.filter_cons, List.filter_nil]
          rw [hswap (b + S.2), if_pos rfl, hread, if_pos hpred]
      · -- middle block: a rotation of the old middle block
        rcases Nat.eq_or_lt_of_le ih2 with heq | hlt
        · -- the left block filled the whole processed prefix
          have hmid : (k : ℕ) - S.2 = 0 := by omega
          have hnil : (((List.range' b k).map (fun p => tris.getD p default)).filter
              (fun t => ! EF.flt (t.center.comp axis) mid)) = [] := by
            have := ih5
            rw [hmid] at this
            simp only [List.range'_zero, List.map_nil] at this
            exact (List.Perm.nil_eq this).symm
          rw [List.range'_concat, one_mul, List.map_append, List.filter_append, hnil]
          simp only [List.map_cons, List.map_nil, List.filter_cons, List.filter_nil,
            hread, hpred]
          simp only [show k + 1 - (S.2 + 1) = 0 by omega, List.range'_zero, List.map_nil]
          simp
        · -- rotate: the displaced element moves to the back
          have hk1 : k + 1 - (S.2 + 1) = k - S.2 := by omega
          set m := k - S.2 - 1 with hm
          have hksub : k - S.2 = m + 1 := by omega
          rw [hk1]
          have hnewmid : (List.range' (b + (S.2 + 1)) (k - S.2)).map
              (fun p => (listSwap S.1 (b + k) (b + S.2)).getD p default) =
              ((List.range' (b + S.2 + 1) m).map
                (fun p => S.1.getD p default)) ++ [S.1.getD (b + S.2) default] := by
            rw [hksub, List.range'_concat, one_mul, List.map_append]
            congr 1
            · rw [show b + (S.2 + 1) = b + S.2 + 1 by omega]
              apply List.map_congr_left
              intro p hp
              rw [List.mem_range'_1] at hp
              rw [hswap p, if_neg (by omega), if_neg (by omega)]
            · simp only [List.map_cons, List.map_nil]
              rw [show b + (S.2 + 1) + m = b + k by omega]
              rw [hswap (b + k), if_neg (by omega), if_pos rfl]
          rw [hnewmid]
          have holdmid : (List.range' (b + S.2) (k - S.2)).map
              (fun p => S.1.getD p default) =
              S.1.getD (b + S.2) default ::
                ((List.range' (b + S.2 + 1) m).map
                  (fun p => S.1.getD p default)) := by
            rw [hksub, List.range'_succ, List.map_cons]
          have hperm1 : (((List.range' (b + S.2 + 1) m).map
              (fun p => S.1.getD p default)) ++ [S.1.getD (b + S.2) default]).Perm
              ((List.range' (b + S.2) (k - S.2)).map (fun p => S.1.getD p default)) := by
            rw [holdmid]
            exact List.perm_append_singleton _ _
          refine hperm1.trans (ih5.trans ?_)
          rw [List.range'_concat, one_mul, List.map_append, List.filter_append]
          simp only [List.map_cons, List.map_nil, List.filter_cons, List.filter_nil,
            hpred]
          simp
    · -- the triangle at `b + k` stays on the right side
      have hstep' : split_tris tris ⟨mn, b, mx, k + 1⟩ ⟨axis, mid⟩ = S := by
        rw [hstep]
        simp only [← hSdef, hread]
        rw [if_neg (by simpa using hpred)]
      rw [hstep']
      refine ⟨ih1, by omega, fun j hj => ih3 j (by omega), ?_, ?_⟩
      · rw [ih4, List.range'_concat, one_mul, List.map_append, List.filter_append]
        simp only [List.map_cons, List.map_nil, List.filter_cons, List.filter_nil, hpred]
        simp
      · have hmid : k + 1 - S.2 = (k - S.2) + 1 := by omega
        rw [hmid, List.range'_concat, one_mul, List.map_append,
          show b + S.2 + (k - S.2) = b + k by omega]
        rw [List.range'_concat, one_mul, List.map_append, List.filter_append]
        simp only [List.map_cons, List.map_nil, List.filter_cons, List.filter_nil, hpred]
        simp only [Bool.not_false, if_pos, hread]
        exact ih5.append_right _

end BVHTree

namespace BVHTree

/-- Claim C5: `split` sweeps the range once in place.  The list keeps its
length and positions outside the node's range are untouched; the left block
`[index, index + left_count)` consists exactly of the range's triangles with
`center[axis] < mid` (strictly), in sweep order; the rest of the range is a
permutation of the remaining triangles — in particular every triangle whose
centroid coordinate equals the midpoint lands on the right side; and the
function returns `none` (the node stays a leaf) precisely when the left or
the right side is empty. -/
theorem split_partition_spec (tris : List Triangle) (parent : BVHNode) (sp : Split)
    (hrange : parent.index + parent.count ≤ tris.length) :
    (split tris parent sp).1.length = tris.length ∧
    (∀ j, j < parent.index ∨ parent.index + parent.count ≤ j →
      (split tris parent sp).1.getD j default = tris.getD j default) ∧
    (split_tris tris parent sp).2 =
      (((List.range' parent.index parent.count).map (fun p => tris.getD p default)).filter
        (fun t => EF.flt (t.center.comp sp.axis) sp.mid)).length ∧
    (List.range' parent.index (split_tris tris parent sp).2).map
        (fun p => (split tris parent sp).1.getD p default) =
      ((List.range' parent.index parent.count).map (fun p => tris.getD p default)).filter
        (fun t => EF.flt (t.center.comp sp.axis) sp.mid) ∧
    ((List.range' (parent.index + (split_tris tris parent sp).2)
        (parent.count - (split_tris tris parent sp).2)).map
        (fun p => (split tris parent sp).1.getD p default)).Perm
      (((List.range' parent.index parent.count).map (fun p => tris.getD p default)).filter
        (fun t => ! EF.flt (t.center.comp sp.axis) sp.mid)) ∧
    ((split tris parent sp).2 = none ↔
      (split_tris tris parent sp).2 = 0 ∨ (split_tris tris parent sp).2 = parent.count) := by
  obtain ⟨mn, b, mx, n⟩ := parent
  obtain ⟨axis, mid⟩ := sp
  simp only at hrange
  obtain ⟨h1, _, h3, h4, h5⟩ := split_tris_spec tris mn mx b axis mid n hrange
  have hfst : (split tris ⟨mn, b, mx, n⟩ ⟨axis, mid⟩).1 =
      (split_tris tris ⟨mn, b, mx, n⟩ ⟨axis, mid⟩).1 := by
    simp only [split]
    split <;> rfl
  have hlen : (split_tris tris ⟨mn, b, mx, n⟩ ⟨axis, mid⟩).2 =
      (((List.range' b n).map (fun p => tris.getD p default)).filter
        (fun t => EF.flt (t.center.comp axis) mid)).length := by
    rw [← h4, List.length_map, List.length_range']
  refine ⟨by rw [hfst]; exact h1, fun j hj => by rw [hfst]; exact h3 j hj,
    hlen, by rw [hfst]; exact h4, by rw [hfst]; exact h5, ?_⟩
  simp only [split]
  split
  · rename_i hcond
    simpa using hcond
  · rename_i hcond
    constructor
    · intro h; simp at h
    · intro h; exact absurd h hcond

end BVHTree

namespace BVHTree

/-- Witness for C5 on the two-triangle cache with midpoint `x = 100`:
the sweep keeps the length, and the split is accepted (neither side
empty). -/
theorem split_partition_spec_witness :
    (split (triangle_cache exMesh2.vertices exMesh2.indices)
        (build_leaf (triangle_cache exMesh2.vertices exMesh2.indices) 0 2)
        ⟨0, .fin 100⟩).1.length =
      (triangle_cache exMesh2.vertices exMesh2.indices).length ∧
    ((split (triangle_cache exMesh2.vertices exMesh2.indices)
        (build_leaf (triangle_cache exMesh2.vertices exMesh2.indices) 0 2)
        ⟨0, .fin 100⟩).2 = none ↔
      (split_tris (triangle_cache exMesh2.vertices exMesh2.indices)
        (build_leaf (triangle_cache exMesh2.vertices exMesh2.indices) 0 2)
        ⟨0, .fin 100⟩).2 = 0 ∨
      (split_tris (triangle_cache exMesh2.vertices exMesh2.indices)
        (build_leaf (triangle_cache exMesh2.vertices exMesh2.indices) 0 2)
        ⟨0, .fin 100⟩).2 =
        (build_leaf (triangle_cache exMesh2.vertices exMesh2.indices) 0 2).count) := by
  have h := split_partition_spec (triangle_cache exMesh2.vertices exMesh2.indices)
    (build_leaf (triangle_cache exMesh2.vertices exMesh2.indices) 0 2)
    ⟨0, .fin 100⟩ (by decide)
  exact ⟨h.1, h.2.2.2.2.2⟩

end BVHTree

namespace EF

/-- Characterization of finiteness. -/
lemma isFinite_iff {e : EF} : e.isFinite = true ↔ ∃ q, e = .fin q := by
  cases e <;> simp [isFinite]

/-- Nothing is IEEE-below `+inf`... above, rather: `+inf < x` never holds. -/
lemma flt_pos_inf_left (x : EF) : flt .pos_inf x = false := by
  cases x <;> rfl

/-- `f32::min` with `-inf` on either side is `-inf`. -/
lemma fmin_neg_inf_right (x : EF) : fmin x .neg_inf = .neg_inf := by
  cases x <;> rfl

/-- `f32::min` with `-inf` on the left is `-inf`. -/
lemma fmin_neg_inf_left (x : EF) : fmin .neg_inf x = .neg_inf := by
  cases x <;> rfl

/-- `f32::max` with `+inf` on either side is `+inf`. -/
lemma fmax_pos_inf_right (x : EF) : fmax x .pos_inf = .pos_inf := by
  cases x <;> rfl

/-- `f32::max` with `+inf` on the left is `+inf`. -/
lemma fmax_pos_inf_left (x : EF) : fmax .pos_inf x = .pos_inf := by
  cases x <;> rfl

/-- `+inf - b` is never finite. -/
lemma fsub_pos_inf_left (b : EF) : (fsub .pos_inf b).isFinite = false := by
  cases b <;> rfl

/-- `a - (-inf)` is never finite. -/
lemma fsub_neg_inf_right (a : EF) : (fsub a .neg_inf).isFinite = false := by
  cases a <;> rfl

/-- Adding two values that are each finite or `+inf`, with at least one
`+inf`, gives `+inf`. -/
lemma fadd_pos_inf {a b : EF}
    (ha : (∃ q, a = .fin q) ∨ a = .pos_inf) (hb : (∃ q, b = .fin q) ∨ b = .pos_inf)
    (h : a = .pos_inf ∨ b = .pos_inf) : fadd a b = .pos_inf := by
  rcases ha with ⟨qa, rfl⟩ | rfl <;> rcases hb with ⟨qb, rfl⟩ | rfl <;> simp_all [fadd]

end EF

namespace EVec3

/-- Indexing commutes with `vmin`. -/
lemma comp_vmin (u v : EVec3) (a : ℕ) :
    (vmin u v).comp a = EF.fmin (u.comp a) (v.comp a) := by
  match a with
  | 0 => rfl
  | 1 => rfl
  | n + 2 => rfl

/-- Indexing commutes with `vmax`. -/
lemma comp_vmax (u v : EVec3) (a : ℕ) :
    (vmax u v).comp a = EF.fmax (u.comp a) (v.comp a) := by
  match a with
  | 0 => rfl
  | 1 => rfl
  | n + 2 => rfl

/-- A vector with a non-finite component in a position `a < 3` is not
finite. -/
lemma isFinite_eq_false_of_comp (v : EVec3) (a : ℕ) (ha : a < 3)
    (h : (v.comp a).isFinite = false) : v.isFinite = false := by
  match a, ha with
  | 0, _ => simp only [isFinite, comp] at *; simp [h]
  | 1, _ => simp only [isFinite, comp] at *; simp [h]
  | 2, _ => simp only [isFinite, comp] at *; simp [h]

end EVec3

namespace EVec3

/-- Indexing commutes with `vsub`. -/
lemma comp_vsub (u v : EVec3) (a : ℕ) :
    (vsub u v).comp a = EF.fsub (u.comp a) (v.comp a) := by
  match a with
  | 0 => rfl
  | 1 => rfl
  | n + 2 => rfl

end EVec3

/-- The extent of a box with an infinite outward bound is not finite. -/
lemma boxInf_extent_not_finite {mn mx : EVec3} (h : boxInf mn mx) :
    (EVec3.vsub mx mn).isFinite = false := by
  obtain ⟨a, ha, hcase⟩ := h
  apply EVec3.isFinite_eq_false_of_comp _ a ha
  rw [EVec3.comp_vsub]
  rcases hcase with hmn | hmx
  · rw [hmn]; exact EF.fsub_neg_inf_right _
  · rw [hmx]; exact EF.fsub_pos_inf_left _

namespace Bin

/-- Claim C7 (bin half): a bin whose box extent is not finite has SAH cost
`+inf`; in particular any bin with an infinite outward bound. -/
lemma cost_eq_pos_inf_of_not_finite {b : Bin}
    (h : (EVec3.vsub b.max b.min).isFinite = false) : b.cost = .pos_inf := by
  unfold Bin.cost
  simp [h]

/-- A bin's cost is a finite value or `+inf` (never NaN or `-inf`). -/
lemma cost_fin_or_inf (b : Bin) : (∃ q, b.cost = .fin q) ∨ b.cost = .pos_inf := by
  unfold Bin.cost
  by_cases hf : (EVec3.vsub b.max b.min).isFinite = true
  · have hx := hf
    simp only [EVec3.isFinite, Bool.and_eq_true] at hx
    obtain ⟨qx, hqx⟩ := EF.isFinite_iff.mp hx.1.1
    obtain ⟨qy, hqy⟩ := EF.isFinite_iff.mp hx.1.2
    obtain ⟨qz, hqz⟩ := EF.isFinite_iff.mp hx.2
    rw [if_pos hf]
    dsimp only
    rw [hqx, hqy, hqz]
    exact Or.inl ⟨_, rfl⟩
  · rw [if_neg hf]
    exact Or.inr rfl

/-- Including a triangle preserves an infinite bound and installs one when
the triangle's AABB has one. -/
lemma incl_boxInf {b : Bin} {t : Triangle}
    (h : boxInf b.min b.max ∨ t.infDegenerate) :
    boxInf (b.incl t).min (b.incl t).max := by
  rcases h with ⟨a, ha, hc⟩ | ⟨a, ha, hc⟩ <;>
    refine ⟨a, ha, ?_⟩ <;>
    simp only [incl, EVec3.comp_vmin, EVec3.comp_vmax] <;>
    rcases hc with hmn | hmx
  · exact Or.inl (by rw [hmn]; exact EF.fmin_neg_inf_left _)
  · exact Or.inr (by rw [hmx]; exact EF.fmax_pos_inf_left _)
  · exact Or.inl (by rw [hmn]; exact EF.fmin_neg_inf_right _)
  · exact Or.inr (by rw [hmx]; exact EF.fmax_pos_inf_right _)

/-- Merging bins likewise propagates an infinite bound from either side. -/
lemma incl_bin_boxInf {b o : Bin}
    (h : boxInf b.min b.max ∨ boxInf o.min o.max) :
    boxInf (b.incl_bin o).min (b.incl_bin o).max := by
  rcases h with ⟨a, ha, hc⟩ | ⟨a, ha, hc⟩ <;>
    refine ⟨a, ha, ?_⟩ <;>
    simp only [incl_bin, EVec3.comp_vmin, EVec3.comp_vmax] <;>
    rcases hc with hmn | hmx
  · exact Or.inl (by rw [hmn]; exact EF.fmin_neg_inf_left _)
  · exact Or.inr (by rw [hmx]; exact EF.fmax_pos_inf_left _)
  · exact Or.inl (by rw [hmn]; exact EF.fmin_neg_inf_right _)
  · exact Or.inr (by rw [hmx]; exact EF.fmax_pos_inf_right _)

end Bin

namespace BVHNode

/-- Claim C7 (node half): a node whose box extent is not finite has SAH
cost `+inf`. -/
lemma node_cost_eq_pos_inf_of_not_finite {n : BVHNode}
    (h : (EVec3.vsub n.max n.min).isFinite = false) : n.cost = .pos_inf := by
  unfold BVHNode.cost
  simp [h]

/-- A node's cost is a finite value or `+inf` (never NaN or `-inf`). -/
lemma node_cost_fin_or_inf (n : BVHNode) : (∃ q, n.cost = .fin q) ∨ n.cost = .pos_inf := by
  unfold BVHNode.cost
  by_cases hf : (EVec3.vsub n.max n.min).isFinite = true
  · have hx := hf
    simp only [EVec3.isFinite, Bool.and_eq_true] at hx
    obtain ⟨qx, hqx⟩ := EF.isFinite_iff.mp hx.1.1
    obtain ⟨qy, hqy⟩ := EF.isFinite_iff.mp hx.1.2
    obtain ⟨qz, hqz⟩ := EF.isFinite_iff.mp hx.2
    rw [if_pos hf]
    dsimp only
    rw [hqx, hqy, hqz]
    exact Or.inl ⟨_, rfl⟩
  · rw [if_neg hf]
    exact Or.inr rfl

end BVHNode

/-- `getD` after `set` at the same (in-range) position. -/
lemma getD_set_self {α : Type} [Inhabited α] (l : List α) (j : ℕ) (v : α)
    (hj : j < l.length) : (l.set j v).getD j default = v := by
  rw [List.getD_eq_getElem?_getD, List.getElem?_set_self (by simpa using hj)]
  rfl

/-- `getD` after `set` at a different position. -/
lemma getD_set_ne {α : Type} [Inhabited α] (l : List α) (j s : ℕ) (v : α)
    (h : s ≠ j) : (l.set j v).getD s default = l.getD s default := by
  rw [List.getD_eq_getElem?_getD, List.getElem?_set_ne (by omega), ← List.getD_eq_getElem?_getD]

/-- Min/max accumulation of a triangle preserves and installs infinite
outward bounds. -/
lemma vminmax_boxInf {mn mx : EVec3} {t : Triangle}
    (h : boxInf mn mx ∨ t.infDegenerate) :
    boxInf (EVec3.vmin mn t.min) (EVec3.vmax mx t.max) := by
  rcases h with ⟨a, ha, hc⟩ | ⟨a, ha, hc⟩ <;>
    refine ⟨a, ha, ?_⟩ <;>
    simp only [EVec3.comp_vmin, EVec3.comp_vmax] <;>
    rcases hc with hmn | hmx
  · exact Or.inl (by rw [hmn]; exact EF.fmin_neg_inf_left _)
  · exact Or.inr (by rw [hmx]; exact EF.fmax_pos_inf_left _)
  · exact Or.inl (by rw [hmn]; exact EF.fmin_neg_inf_right _)
  · exact Or.inr (by rw [hmx]; exact EF.fmax_pos_inf_right _)

namespace BVHTree

/-- The min/max fold of `build_leaf` propagates infinite outward bounds. -/
lemma mm_fold_boxInf (tris : List Triangle) (l : List ℕ) (p : EVec3 × EVec3)
    (h : boxInf p.1 p.2 ∨ ∃ i ∈ l, (tris.getD i default).infDegenerate) :
    boxInf
      (l.foldl (fun (p : EVec3 × EVec3) i =>
        (EVec3.vmin p.1 (tris.getD i default).min,
          EVec3.vmax p.2 (tris.getD i default).max)) p).1
      (l.foldl (fun (p : EVec3 × EVec3) i =>
        (EVec3.vmin p.1 (tris.getD i default).min,
          EVec3.vmax p.2 (tris.getD i default).max)) p).2 := by
  induction l generalizing p with
  | nil =>
    rcases h with h | h
    · exact h
    · simp at h
  | cons j rest ih =>
    simp only [List.foldl_cons]
    apply ih
    rcases h with h | ⟨i, hi, hd⟩
    · exact Or.inl (vminmax_boxInf (Or.inl h))
    · rcases List.mem_cons.mp hi with rfl | hmem
      · exact Or.inl (vminmax_boxInf (Or.inr hd))
      · exact Or.inr ⟨i, hmem, hd⟩

/-- A leaf built over a range containing a triangle with an infinite
outward AABB bound inherits that bound. -/
lemma build_leaf_boxInf (tris : List Triangle) (index count : ℕ)
    (hdeg : ∃ i, index ≤ i ∧ i < index + count ∧
      (tris.getD i default).infDegenerate) :
    boxInf (build_leaf tris index count).min (build_leaf tris index count).max := by
  obtain ⟨i, hi1, hi2, hd⟩ := hdeg
  unfold build_leaf
  dsimp only
  apply mm_fold_boxInf
  rcases Nat.eq_or_lt_of_le hi1 with rfl | hgt
  · exact Or.inl hd
  · refine Or.inr ⟨i, ?_, hd⟩
    rw [List.mem_range'_1]
    omega

/-- The pair fold underlying `bins_for` propagates an infinite outward
bound that is already present, or that arrives with one of the listed
triangles, into one of the two bins. -/
lemma bins_pair_fold_boxInf (tris : List Triangle) (axis : ℕ) (mid : EF)
    (l : List ℕ) (p : Bin × Bin)
    (h : (boxInf p.1.min p.1.max ∨ boxInf p.2.min p.2.max) ∨
      ∃ i ∈ l, (tris.getD i default).infDegenerate) :
    (boxInf (l.foldl (fun (p : Bin × Bin) j =>
        let t := tris.getD j default
        if EF.flt (t.center.comp axis) mid then (p.1.incl t, p.2)
        else (p.1, p.2.incl t)) p).1.min
      (l.foldl (fun (p : Bin × Bin) j =>
        let t := tris.getD j default
        if EF.flt (t.center.comp axis) mid then (p.1.incl t, p.2)
        else (p.1, p.2.incl t)) p).1.max) ∨
    (boxInf (l.foldl (fun (p : Bin × Bin) j =>
        let t := tris.getD j default
        if EF.flt (t.center.comp axis) mid then (p.1.incl t, p.2)
        else (p.1, p.2.incl t)) p).2.min
      (l.foldl (fun (p : Bin × Bin) j =>
        let t := tris.getD j default
        if EF.flt (t.center.comp axis) mid then (p.1.incl t, p.2)
        else (p.1, p.2.incl t)) p).2.max) := by
  induction l generalizing p with
  | nil =>
    rcases h with h | h
    · exact h
    · simp at h
  | cons j rest ih =>
    simp only [List.foldl_cons]
    apply ih
    by_cases hpred : EF.flt ((tris.getD j default).center.comp axis) mid = true
    · simp only [hpred, if_pos]
      rcases h with (hl | hr) | ⟨i, hi, hd⟩
      · exact Or.inl (Or.inl (Bin.incl_boxInf (Or.inl hl)))
      · exact Or.inl (Or.inr hr)
      · rcases List.mem_cons.mp hi with rfl | hmem
        · exact Or.inl (Or.inl (Bin.incl_boxInf (Or.inr hd)))
        · exact Or.inr ⟨i, hmem, hd⟩
    · rw [if_neg (by simpa using hpred)]
      rcases h with (hl | hr) | ⟨i, hi, hd⟩
      · exact Or.inl (Or.inl hl)
      · exact Or.inl (Or.inr (Bin.incl_boxInf (Or.inl hr)))
      · rcases List.mem_cons.mp hi with rfl | hmem
        · exact Or.inl (Or.inr (Bin.incl_boxInf (Or.inr hd)))
        · exact Or.inr ⟨i, hmem, hd⟩

/-- The two candidate bins of `bins_for` absorb an infinite outward bound
from any triangle of the range. -/
lemma bins_for_boxInf (tris : List Triangle) (parent : BVHNode) (axis : ℕ) (mid : EF)
    (hdeg : ∃ i, parent.index ≤ i ∧ i < parent.index + parent.count ∧
      (tris.getD i default).infDegenerate) :
    boxInf (bins_for tris parent axis mid).1.min (bins_for tris parent axis mid).1.max ∨
    boxInf (bins_for tris parent axis mid).2.min (bins_for tris parent axis mid).2.max := by
  obtain ⟨i, hi1, hi2, hd⟩ := hdeg
  have hmem : i ∈ List.range' parent.index parent.count := by
    rw [List.mem_range'_1]; omega
  exact bins_pair_fold_boxInf tris axis mid _ _ (Or.inr ⟨i, hmem, hd⟩)

end BVHTree

namespace BVHTree

/-- Every brute-force candidate over a range holding a triangle with an
infinite outward AABB bound costs `+inf`. -/
lemma cand_cost_pos_inf (tris : List Triangle) (parent : BVHNode) (axis : ℕ) (mid : EF)
    (hdeg : ∃ i, parent.index ≤ i ∧ i < parent.index + parent.count ∧
      (tris.getD i default).infDegenerate) :
    cand_cost tris parent axis mid = .pos_inf := by
  unfold cand_cost
  rcases bins_for_boxInf tris parent axis mid hdeg with hl | hr
  · exact EF.fadd_pos_inf
      (Or.inr (Bin.cost_eq_pos_inf_of_not_finite (boxInf_extent_not_finite hl)))
      ((bins_for tris parent axis mid).2.cost_fin_or_inf)
      (Or.inl (Bin.cost_eq_pos_inf_of_not_finite (boxInf_extent_not_finite hl)))
  · exact EF.fadd_pos_inf
      ((bins_for tris parent axis mid).1.cost_fin_or_inf)
      (Or.inr (Bin.cost_eq_pos_inf_of_not_finite (boxInf_extent_not_finite hr)))
      (Or.inr (Bin.cost_eq_pos_inf_of_not_finite (boxInf_extent_not_finite hr)))

/-- With an infinitely-bounded triangle in the range, the brute-force
search retains no candidate: every candidate costs `+inf`, which is never
strictly below the running best. -/
lemma find_best_split_none (tris : List Triangle) (parent : BVHNode)
    (hdeg : ∃ i, parent.index ≤ i ∧ i < parent.index + parent.count ∧
      (tris.getD i default).infDegenerate) :
    find_best_split tris parent = none := by
  unfold find_best_split
  suffices h : ∀ (l : List (ℕ × ℕ)) (st : EF × Option Split),
      (l.foldl
        (fun (st : EF × Option Split) c =>
          let mid := (tris.getD c.2 default).center.comp c.1
          let b := bins_for tris parent c.1 mid
          let cost := EF.fadd b.1.cost b.2.cost
          if EF.flt cost st.1 then (cost, some ⟨c.1, mid⟩) else st) st) = st by
    dsimp only
    rw [h]
  intro l
  induction l with
  | nil => intro st; rfl
  | cons c rest ih =>
    intro st
    simp only [List.foldl_cons]
    have hc : EF.fadd (bins_for tris parent c.1
        ((tris.getD c.2 default).center.comp c.1)).1.cost
        (bins_for tris parent c.1 ((tris.getD c.2 default).center.comp c.1)).2.cost =
        .pos_inf := cand_cost_pos_inf tris parent c.1 _ hdeg
    rw [show (if EF.flt (EF.fadd (bins_for tris parent c.1
        ((tris.getD c.2 default).center.comp c.1)).1.cost
        (bins_for tris parent c.1 ((tris.getD c.2 default).center.comp c.1)).2.cost) st.1
        then (EF.fadd (bins_for tris parent c.1
          ((tris.getD c.2 default).center.comp c.1)).1.cost
          (bins_for tris parent c.1 ((tris.getD c.2 default).center.comp c.1)).2.cost,
          some ⟨c.1, (tris.getD c.2 default).center.comp c.1⟩)
        else st) = st from by rw [hc, EF.flt_pos_inf_left]; simp]
    exact ih st

end BVHTree

namespace BVHTree

/-- The bin-array fold of `build_bins` preserves length. -/
lemma build_bins_fold_length (tris : List Triangle) (parent : BVHNode) (step : EVec3)
    (l : List ℕ) (bins : List Bin) :
    (l.foldl (fun bins i =>
      let t := tris.getD i default
      let bx := bin_index t.center.x parent.min.x step.x
      let biy := 16 + bin_index t.center.y parent.min.y step.y
      let biz := 32 + bin_index t.center.z parent.min.z step.z
      let bins1 := bins.set bx ((bins.getD bx default).incl t)
      let bins2 := bins1.set biy ((bins1.getD biy default).incl t)
      bins2.set biz ((bins2.getD biz default).incl t)) bins).length = bins.length := by
  induction l generalizing bins with
  | nil => rfl
  | cons j rest ih =>
    simp only [List.foldl_cons]
    rw [ih]
    simp [List.length_set]

/-- Once a triangle with an infinite outward AABB bound is binned, every
axis owns a contaminated bin (index `≤ 15` within the axis's block), and
further binning preserves this. -/
lemma build_bins_fold_boxInf (tris : List Triangle) (parent : BVHNode) (step : EVec3)
    (l : List ℕ) (bins : List Bin) (hlen : bins.length = 48)
    (h : (∀ a, a < 3 → ∃ k, k ≤ 15 ∧
        boxInf ((bins.getD (a * 16 + k) default).min) ((bins.getD (a * 16 + k) default).max)) ∨
      ∃ i ∈ l, (tris.getD i default).infDegenerate) :
    ∀ a, a < 3 → ∃ k, k ≤ 15 ∧
      boxInf (((l.foldl (fun bins i =>
        let t := tris.getD i default
        let bx := bin_index t.center.x parent.min.x step.x
        let biy := 16 + bin_index t.center.y parent.min.y step.y
        let biz := 32 + bin_index t.center.z parent.min.z step.z
        let bins1 := bins.set bx ((bins.getD bx default).incl t)
        let bins2 := bins1.set biy ((bins1.getD biy default).incl t)
        bins2.set biz ((bins2.getD biz default).incl t)) bins).getD (a * 16 + k) default).min)
        (((l.foldl (fun bins i =>
        let t := tris.getD i default
        let bx := bin_index t.center.x parent.min.x step.x
        let biy := 16 + bin_index t.center.y parent.min.y step.y
        let biz := 32 + bin_index t.center.z parent.min.z step.z
        let bins1 := bins.set bx ((bins.getD bx default).incl t)
        let bins2 := bins1.set biy ((bins1.getD biy default).incl t)
        bins2.set biz ((bins2.getD biz default).incl t)) bins).getD (a * 16 + k) default).max) := by
  induction l generalizing bins with
  | nil =>
    rcases h with h | h
    · exact h
    · simp at h
  | cons j rest ih =>
    simp only [List.foldl_cons]
    set t := tris.getD j default with ht
    set bx := bin_index t.center.x parent.min.x step.x with hbx
    set biy := 16 + bin_index t.center.y parent.min.y step.y with hbiy
    set biz := 32 + bin_index t.center.z parent.min.z step.z with hbiz
    have hbx15 : bin_index t.center.x parent.min.x step.x ≤ 15 := Nat.min_le_right _ _
    have hby15 : bin_index t.center.y parent.min.y step.y ≤ 15 := Nat.min_le_right _ _
    have hbz15 : bin_index t.center.z parent.min.z step.z ≤ 15 := Nat.min_le_right _ _
    set bins1 := bins.set bx ((bins.getD bx default).incl t) with hb1
    set bins2 := bins1.set biy ((bins1.getD biy default).incl t) with hb2
    set bins3 := bins2.set biz ((bins2.getD biz default).incl t) with hb3
    have hlen1 : bins1.length = 48 := by rw [hb1, List.length_set]; exact hlen
    have hlen2 : bins2.length = 48 := by rw [hb2, List.length_set]; exact hlen1
    have hlen3 : bins3.length = 48 := by rw [hb3, List.length_set]; exact hlen2
    -- one step preserves a contaminated slot
    have hpres : ∀ s, s < 48 →
        boxInf ((bins.getD s default).min) ((bins.getD s default).max) →
        boxInf ((bins3.getD s default).min) ((bins3.getD s default).max) := by
      intro s hs48 hcont
      have h1 : boxInf ((bins1.getD s default).min) ((bins1.getD s default).max) := by
        by_cases hsx : s = bx
        · subst hsx
          rw [hb1, getD_set_self _ _ _ (by omega)]
          exact Bin.incl_boxInf (Or.inl hcont)
        · rw [hb1, getD_set_ne _ _ _ _ hsx]
          exact hcont
      have h2 : boxInf ((bins2.getD s default).min) ((bins2.getD s default).max) := by
        by_cases hsy : s = biy
        · subst hsy
          rw [hb2, getD_set_self _ _ _ (by omega)]
          exact Bin.incl_boxInf (Or.inl h1)
        · rw [hb2, getD_set_ne _ _ _ _ hsy]
          exact h1
      by_cases hsz : s = biz
      · subst hsz
        rw [hb3, getD_set_self _ _ _ (by omega)]
        exact Bin.incl_boxInf (Or.inl h2)
      · rw [hb3, getD_set_ne _ _ _ _ hsz]
        exact h2
    apply ih bins3 hlen3
    rcases h with hc | ⟨i, hi, hd⟩
    · left
      intro a ha
      obtain ⟨k, hk, hcont⟩ := hc a ha
      exact ⟨k, hk, hpres (a * 16 + k) (by omega) hcont⟩
    · rcases List.mem_cons.mp hi with rfl | hmem
      · -- the degenerate triangle is binned now, once per axis
        left
        intro a ha
        match a, ha with
        | 0, _ =>
          refine ⟨bin_index t.center.x parent.min.x step.x, hbx15, ?_⟩
          have e1 : bins1.getD bx default = (bins.getD bx default).incl t :=
            getD_set_self _ _ _ (by omega)
          have e2 : bins2.getD bx default = bins1.getD bx default :=
            getD_set_ne _ _ _ _ (by omega)
          have e3 : bins3.getD bx default = bins2.getD bx default :=
            getD_set_ne _ _ _ _ (by omega)
          simp only [Nat.zero_mul, Nat.zero_add, ← hbx, e3, e2, e1]
          exact Bin.incl_boxInf (Or.inr hd)
        | 1, _ =>
          refine ⟨bin_index t.center.y parent.min.y step.y, hby15, ?_⟩
          have e2 : bins2.getD biy default = (bins1.getD biy default).incl t :=
            getD_set_self _ _ _ (by omega)
          have e3 : bins3.getD biy default = bins2.getD biy default :=
            getD_set_ne _ _ _ _ (by omega)
          rw [show 1 * 16 + bin_index t.center.y parent.min.y step.y = biy by omega, e3, e2]
          exact Bin.incl_boxInf (Or.inr hd)
        | 2, _ =>
          refine ⟨bin_index t.center.z parent.min.z step.z, hbz15, ?_⟩
          have e3 : bins3.getD biz default = (bins2.getD biz default).incl t :=
            getD_set_self _ _ _ (by omega)
          rw [show 2 * 16 + bin_index t.center.z parent.min.z step.z = biz by omega, e3]
          exact Bin.incl_boxInf (Or.inr hd)
      · exact Or.inr ⟨i, hmem, hd⟩

end BVHTree

namespace BVHTree

/-- Merging a run of bins that contains a contaminated one (or starting
from a contaminated accumulator) yields a contaminated bin. -/
lemma incl_bin_fold_boxInf (f : ℕ → Bin) (l : List ℕ) (init : Bin)
    (h : boxInf init.min init.max ∨ ∃ j ∈ l, boxInf (f j).min (f j).max) :
    boxInf (l.foldl (fun (rb : Bin) j => rb.incl_bin (f j)) init).min
      (l.foldl (fun (rb : Bin) j => rb.incl_bin (f j)) init).max := by
  induction l generalizing init with
  | nil =>
    rcases h with h | h
    · exact h
    · simp at h
  | cons j rest ih =>
    simp only [List.foldl_cons]
    apply ih
    rcases h with hc | ⟨j', hj', hd⟩
    · exact Or.inl (Bin.incl_bin_boxInf (Or.inl hc))
    · rcases List.mem_cons.mp hj' with rfl | hmem
      · exact Or.inl (Bin.incl_bin_boxInf (Or.inr hd))
      · exact Or.inr ⟨j', hmem, hd⟩

/-- When some bin of axis `a` is contaminated, the per-axis sweep of
`approximate_best_split` never updates the running best: every candidate
has a contaminated side and hence cost `+inf`. -/
lemma axis_sweep_const (bins : List Bin) (pmin stepv : EVec3) (a : ℕ)
    (st0 : EF × Option Split)
    (hk : ∃ k, k ≤ 15 ∧ boxInf ((bins.getD (a * 16 + k) default).min)
      ((bins.getD (a * 16 + k) default).max)) :
    ∀ m, m ≤ 15 →
      ((List.range m).foldl
        (fun (q : Bin × EF × Option Split) i =>
          let left := q.1.incl_bin (bins.getD (a * 16 + i) default)
          let right := (List.range' (i + 1) (15 - i)).foldl
            (fun (rb : Bin) j => rb.incl_bin (bins.getD (a * 16 + j) default)) default
          let cost := EF.fadd left.cost right.cost
          if EF.flt cost q.2.1 then
            (left, cost, some ⟨a, EF.fadd (pmin.comp a)
              (EF.fmul (stepv.comp a) (.fin ((i + 1 : ℕ) : ℚ)))⟩)
          else (left, q.2.1, q.2.2)) (default, st0)) =
      ((List.range m).foldl
        (fun (rb : Bin) i => rb.incl_bin (bins.getD (a * 16 + i) default)) default, st0) := by
  obtain ⟨k, hk15, hkc⟩ := hk
  intro m
  induction m with
  | zero => intro _; rfl
  | succ m ih =>
    intro hm
    rw [List.range_succ, List.foldl_append, List.foldl_append, ih (by omega),
      List.foldl_cons, List.foldl_nil, List.foldl_cons, List.foldl_nil]
    dsimp only
    have hcost : EF.fadd
        (((List.range m).foldl
          (fun (rb : Bin) i => rb.incl_bin (bins.getD (a * 16 + i) default)) default).incl_bin
          (bins.getD (a * 16 + m) default)).cost
        ((List.range' (m + 1) (15 - m)).foldl
          (fun (rb : Bin) j => rb.incl_bin (bins.getD (a * 16 + j) default)) default).cost =
        .pos_inf := by
      rcases Nat.lt_or_ge k (m + 1) with hkm | hkm
      · -- the contaminated bin is in the accumulated left block
        have hleft : boxInf
            ((((List.range m).foldl
              (fun (rb : Bin) i => rb.incl_bin (bins.getD (a * 16 + i) default)) default).incl_bin
              (bins.getD (a * 16 + m) default)).min)
            ((((List.range m).foldl
              (fun (rb : Bin) i => rb.incl_bin (bins.getD (a * 16 + i) default)) default).incl_bin
              (bins.getD (a * 16 + m) default)).max) := by
          have : (((List.range m).foldl
              (fun (rb : Bin) i => rb.incl_bin (bins.getD (a * 16 + i) default)) default).incl_bin
              (bins.getD (a * 16 + m) default)) =
              (List.range (m + 1)).foldl
                (fun (rb : Bin) i => rb.incl_bin (bins.getD (a * 16 + i) default)) default := by
            rw [List.range_succ, List.foldl_append, List.foldl_cons, List.foldl_nil]
          rw [this]
          apply incl_bin_fold_boxInf (fun i => bins.getD (a * 16 + i) default)
          exact Or.inr ⟨k, by simpa using hkm, hkc⟩
        exact EF.fadd_pos_inf
          (Or.inr (Bin.cost_eq_pos_inf_of_not_finite (boxInf_extent_not_finite hleft)))
          (Bin.cost_fin_or_inf _)
          (Or.inl (Bin.cost_eq_pos_inf_of_not_finite (boxInf_extent_not_finite hleft)))
      · -- the contaminated bin is merged into the right block
        have hright : boxInf
            (((List.range' (m + 1) (15 - m)).foldl
              (fun (rb : Bin) j => rb.incl_bin (bins.getD (a * 16 + j) default)) default).min)
            (((List.range' (m + 1) (15 - m)).foldl
              (fun (rb : Bin) j => rb.incl_bin (bins.getD (a * 16 + j) default)) default).max) := by
          apply incl_bin_fold_boxInf (fun j => bins.getD (a * 16 + j) default)
          refine Or.inr ⟨k, ?_, hkc⟩
          rw [List.mem_range'_1]
          omega
        exact EF.fadd_pos_inf
          (Bin.cost_fin_or_inf _)
          (Or.inr (Bin.cost_eq_pos_inf_of_not_finite (boxInf_extent_not_finite hright)))
          (Or.inr (Bin.cost_eq_pos_inf_of_not_finite (boxInf_extent_not_finite hright)))
    rw [hcost, EF.flt_pos_inf_left]
    simp

/-- With an infinitely-bounded triangle in the range, binned SAH retains no
candidate either. -/
lemma approximate_best_split_none (tris : List Triangle) (parent : BVHNode)
    (hdeg : ∃ i, parent.index ≤ i ∧ i < parent.index + parent.count ∧
      (tris.getD i default).infDegenerate) :
    approximate_best_split tris parent = none := by
  obtain ⟨i, hi1, hi2, hd⟩ := hdeg
  unfold approximate_best_split
  dsimp only
  have hbins : ∀ a, a < 3 → ∃ k, k ≤ 15 ∧
      boxInf (((build_bins tris parent
          (EVec3.vdivs (EVec3.vsub parent.max parent.min) (.fin 16))).getD
          (a * 16 + k) default).min)
        (((build_bins tris parent
          (EVec3.vdivs (EVec3.vsub parent.max parent.min) (.fin 16))).getD
          (a * 16 + k) default).max) := by
    apply build_bins_fold_boxInf tris parent _ _ _ (by simp)
    refine Or.inr ⟨i, ?_, hd⟩
    rw [List.mem_range'_1]
    omega
  suffices h : ∀ (l : List ℕ), (∀ a ∈ l, a < 3) → ∀ (st : EF × Option Split),
      (l.foldl
        (fun (st : EF × Option Split) axis =>
          ((List.range 15).foldl
            (fun (q : Bin × EF × Option Split) i =>
              let left := q.1.incl_bin ((build_bins tris parent
                (EVec3.vdivs (EVec3.vsub parent.max parent.min) (.fin 16))).getD
                (axis * 16 + i) default)
              let right := (List.range' (i + 1) (15 - i)).foldl
                (fun (rb : Bin) j => rb.incl_bin ((build_bins tris parent
                  (EVec3.vdivs (EVec3.vsub parent.max parent.min) (.fin 16))).getD
                  (axis * 16 + j) default)) default
              let cost := EF.fadd left.cost right.cost
              if EF.flt cost q.2.1 then
                (left, cost, some ⟨axis, EF.fadd (parent.min.comp axis)
                  (EF.fmul ((EVec3.vdivs (EVec3.vsub parent.max parent.min)
                    (.fin 16)).comp axis) (.fin ((i + 1 : ℕ) : ℚ)))⟩)
              else (left, q.2.1, q.2.2))
            (default, st)).2) st) = st by
    rw [h (List.range 3) (by intro a ha; simpa using ha) (parent.cost, none)]
  intro l
  induction l with
  | nil => intro _ st; rfl
  | cons a rest ih =>
    intro hmem st
    simp only [List.foldl_cons]
    rw [axis_sweep_const _ parent.min _ a st (hbins a (hmem a (List.mem_cons_self _ _)))
      15 le_rfl]
    exact ih (fun a' ha' => hmem a' (List.mem_cons_of_mem _ ha')) st

end BVHTree

namespace BVHTree

/-- A node over a range containing a triangle with an infinite outward
AABB bound is never split: every candidate's cost is `+inf`, which is never
strictly below the parent's cost, so `split_node` returns `None` and leaves
the triangle slice untouched. -/
lemma split_node_none_of_infDegenerate (tris : List Triangle) (parent : BVHNode)
    (hdeg : ∃ i, parent.index ≤ i ∧ i < parent.index + parent.count ∧
      (tris.getD i default).infDegenerate) :
    split_node tris parent = (tris, none) := by
  unfold split_node
  by_cases h01 : parent.count = 0 ∨ parent.count = 1
  · rw [if_pos h01]
  rw [if_neg h01]
  by_cases h2 : parent.count = 2
  · rw [if_pos h2]
    obtain ⟨i, hi1, hi2, hd⟩ := hdeg
    have hsum : EF.fadd (build_leaf tris parent.index 1).cost
        (build_leaf tris (parent.index + 1) 1).cost = .pos_inf := by
      rcases show i = parent.index ∨ i = parent.index + 1 by omega with rfl | rfl
      · have hl : boxInf (build_leaf tris parent.index 1).min
            (build_leaf tris parent.index 1).max :=
          build_leaf_boxInf tris parent.index 1 ⟨parent.index, le_rfl, by omega, hd⟩
        exact EF.fadd_pos_inf
          (Or.inr (BVHNode.node_cost_eq_pos_inf_of_not_finite (boxInf_extent_not_finite hl)))
          (BVHNode.node_cost_fin_or_inf _)
          (Or.inl (BVHNode.node_cost_eq_pos_inf_of_not_finite (boxInf_extent_not_finite hl)))
      · have hr : boxInf (build_leaf tris (parent.index + 1) 1).min
            (build_leaf tris (parent.index + 1) 1).max :=
          build_leaf_boxInf tris (parent.index + 1) 1 ⟨parent.index + 1, le_rfl, by omega, hd⟩
        exact EF.fadd_pos_inf
          (BVHNode.node_cost_fin_or_inf _)
          (Or.inr (BVHNode.node_cost_eq_pos_inf_of_not_finite (boxInf_extent_not_finite hr)))
          (Or.inr (BVHNode.node_cost_eq_pos_inf_of_not_finite (boxInf_extent_not_finite hr)))
    dsimp only
    rw [hsum, EF.flt_pos_inf_left]
    simp
  rw [if_neg h2]
  by_cases h11 : parent.count ≤ 11
  · rw [if_pos h11, find_best_split_none tris parent hdeg]
  · rw [if_neg h11, approximate_best_split_none tris parent hdeg]

end BVHTree

/-- Counting elements after `set`: the old entry leaves the count, the new
one enters it. -/
lemma count_set {α : Type} [DecidableEq α] [Inhabited α] :
    ∀ (l : List α) (i : ℕ), i < l.length → ∀ (v a : α),
      (l.set i v).count a + (if l.getD i default = a then 1 else 0) =
        l.count a + (if v = a then 1 else 0) := by
  intro l
  induction l with
  | nil => intro i hi; simp at hi
  | cons x xs ih =>
    intro i hi v a
    cases i with
    | zero =>
      simp only [List.set_cons_zero, List.count_cons, List.getD_cons_zero]
      by_cases hva : v = a <;> by_cases hxa : x = a <;>
        simp [hva, hxa]
    | succ n =>
      simp only [List.set_cons_succ, List.count_cons, List.getD_cons_succ]
      have h := ih n (by simpa using hi) v a
      simp only [List.getD_eq_getElem?_getD] at h ⊢
      by_cases hxa : x = a <;> simp [hxa] <;> omega

/-- An in-range `listSwap` permutes the list. -/
lemma listSwap_perm (l : List Triangle) (i j : ℕ) (hi : i < l.length) (hj : j < l.length) :
    (listSwap l i j).Perm l := by
  rw [List.perm_iff_count]
  intro a
  show ((l.set i (l.getD j default)).set j (l.getD i default)).count a = l.count a
  have h1 := count_set l i hi (l.getD j default) a
  have h2 := count_set (l.set i (l.getD j default)) j (by simpa using hj)
    (l.getD i default) a
  by_cases hij : i = j
  · subst hij
    rw [getD_set_self _ _ _ hi] at h2
    by_cases hia : l.getD i default = a <;> simp [hia] at h1 h2 ⊢ <;> omega
  · rw [getD_set_ne _ _ _ _ (Ne.symm hij)] at h2
    by_cases hia : l.getD i default = a <;> by_cases hja : l.getD j default = a <;>
      simp [hia, hja] at h1 h2 ⊢ <;> omega

namespace BVHTree

/-- The sweep's fold preserves list length, from any starting state. -/
lemma split_tris_fold_length (axis : ℕ) (mid : EF) (b : ℕ) :
    ∀ (l : List ℕ) (st : List Triangle × ℕ),
      (l.foldl (fun (st : List Triangle × ℕ) i =>
        if EF.flt ((st.1.getD i default).center.comp axis) mid then
          (listSwap st.1 i (b + st.2), st.2 + 1)
        else st) st).1.length = st.1.length := by
  intro l
  induction l with
  | nil => intro st; rfl
  | cons i rest ih =>
    intro st
    simp only [List.foldl_cons]
    split
    · rw [ih]
      simp [listSwap]
    · rw [ih]

/-- The sweep's fold adds at most one to the left count per position. -/
lemma split_tris_fold_count (axis : ℕ) (mid : EF) (b : ℕ) :
    ∀ (l : List ℕ) (st : List Triangle × ℕ),
      (l.foldl (fun (st : List Triangle × ℕ) i =>
        if EF.flt ((st.1.getD i default).center.comp axis) mid then
          (listSwap st.1 i (b + st.2), st.2 + 1)
        else st) st).2 ≤ st.2 + l.length := by
  intro l
  induction l with
  | nil => intro st; simp
  | cons i rest ih =>
    intro st
    simp only [List.foldl_cons, List.length_cons]
    split
    · exact le_trans (ih _) (by simp; omega)
    · exact le_trans (ih _) (by omega)

/-- The sweep preserves list length. -/
lemma split_tris_length (tris : List Triangle) (parent : BVHNode) (sp : Split) :
    (split_tris tris parent sp).1.length = tris.length := by
  unfold split_tris
  exact split_tris_fold_length sp.axis sp.mid parent.index _ (tris, 0)

/-- The left count never exceeds the range size. -/
lemma split_tris_count_le (tris : List Triangle) (parent : BVHNode) (sp : Split) :
    (split_tris tris parent sp).2 ≤ parent.count := by
  unfold split_tris
  have h := split_tris_fold_count sp.axis sp.mid parent.index
    (List.range' parent.index parent.count) (tris, 0)
  simpa using h

end BVHTree

namespace BVHTree

/-- The sweep only permutes the triangle list. -/
lemma split_tris_perm (tris : List Triangle) (mn mx : EVec3) (b axis : ℕ) (mid : EF) :
    ∀ k, b + k ≤ tris.length →
      (split_tris tris ⟨mn, b, mx, k⟩ ⟨axis, mid⟩).1.Perm tris := by
  intro k
  induction k with
  | zero => intro _; exact List.Perm.refl _
  | succ k ih =>
    intro hk
    obtain ⟨ih1, ih2, ih3, _, _⟩ := split_tris_spec tris mn mx b axis mid k (by omega)
    have hstep : split_tris tris ⟨mn, b, mx, k + 1⟩ ⟨axis, mid⟩ =
        (let st := split_tris tris ⟨mn, b, mx, k⟩ ⟨axis, mid⟩
         if EF.flt ((st.1.getD (b + k) default).center.comp axis) mid then
           (listSwap st.1 (b + k) (b + st.2), st.2 + 1)
         else st) := by
      simp only [split_tris, List.range'_concat, one_mul, List.foldl_append, List.foldl_cons,
        List.foldl_nil]
    rw [hstep]
    dsimp only
    split
    · exact (listSwap_perm _ _ _ (by omega) (by omega)).trans (ih (by omega))
    · exact ih (by omega)

/-- `split` only permutes the triangle list. -/
lemma split_perm (tris : List Triangle) (parent : BVHNode) (sp : Split)
    (h : parent.index + parent.count ≤ tris.length) :
    (split tris parent sp).1.Perm tris := by
  obtain ⟨mn, b, mx, n⟩ := parent
  obtain ⟨axis, mid⟩ := sp
  have hfst : (split tris ⟨mn, b, mx, n⟩ ⟨axis, mid⟩).1 =
      (split_tris tris ⟨mn, b, mx, n⟩ ⟨axis, mid⟩).1 := by
    simp only [split]
    split <;> rfl
  rw [hfst]
  exact split_tris_perm tris mn mx b axis mid n h

/-- `build_leaf` stores the requested range start. -/
lemma build_leaf_index (tris : List Triangle) (index count : ℕ) :
    (build_leaf tris index count).index = index := rfl

/-- `build_leaf` stores the requested range size. -/
lemma build_leaf_count (tris : List Triangle) (index count : ℕ) :
    (build_leaf tris index count).count = count := rfl

/-- `split_node` only permutes the triangle list. -/
lemma split_node_perm (tris : List Triangle) (parent : BVHNode)
    (h : parent.index + parent.count ≤ tris.length) :
    (split_node tris parent).1.Perm tris := by
  unfold split_node
  split
  · exact List.Perm.refl _
  split
  · dsimp only
    split <;> exact List.Perm.refl _
  split
  · split
    · exact List.Perm.refl _
    · exact split_perm tris parent _ h
  · split
    · exact List.Perm.refl _
    · exact split_perm tris parent _ h

/-- Structural facts about an accepted `split`: the children are adjacent
non-empty leaves tiling the parent's range. -/
lemma split_some_facts (tris : List Triangle) (parent : BVHNode) (sp : Split)
    (tris2 : List Triangle) (l r : BVHNode)
    (h : split tris parent sp = (tris2, some (l, r))) :
    l.index = parent.index ∧ 0 < l.count ∧ 0 < r.count ∧
    r.index = parent.index + l.count ∧ l.count + r.count = parent.count := by
  have hle := split_tris_count_le tris parent sp
  unfold split at h
  dsimp only at h
  split at h
  · simp at h
  · rename_i hcond
    push_neg at hcond
    simp only [Prod.mk.injEq, Option.some.injEq] at h
    obtain ⟨-, hl, hr⟩ := h
    subst hl hr
    simp only [build_leaf_index, build_leaf_count]
    refine ⟨trivial, by omega, by omega, trivial, by omega⟩

/-- Structural facts about an accepted `split_node`. -/
lemma split_node_some_facts (tris : List Triangle) (parent : BVHNode)
    (tris2 : List Triangle) (l r : BVHNode)
    (h : split_node tris parent = (tris2, some (l, r))) :
    l.index = parent.index ∧ 0 < l.count ∧ 0 < r.count ∧
    r.index = parent.index + l.count ∧ l.count + r.count = parent.count := by
  unfold split_node at h
  split at h
  · simp at h
  split at h
  · rename_i h01 h2
    dsimp only at h
    split at h
    · simp only [Prod.mk.injEq, Option.some.injEq] at h
      obtain ⟨-, hl, hr⟩ := h
      subst hl hr
      simp only [build_leaf_index, build_leaf_count]
      refine ⟨trivial, by omega, by omega, trivial, by omega⟩
    · simp at h
  split at h
  · split at h
    · simp at h
    · exact split_some_facts tris parent _ tris2 l r h
  · split at h
    · simp at h
    · exact split_some_facts tris parent _ tris2 l r h

end BVHTree

namespace BVHTree

/-- `make_inner` zeroes the count. -/
lemma make_inner_count (x : BVHNode) (v : ℕ) : (x.make_inner v).count = 0 := rfl

/-- `make_inner` stores the left child index. -/
lemma make_inner_index (x : BVHNode) (v : ℕ) : (x.make_inner v).index = v := rfl

/-- Master invariant of the `build_bvh` loop: it preserves the triangle
count and multiset, and keeps the node array structurally sound (forward
in-bounds child links for inner nodes, in-bounds primitive ranges for
leaves) with every triangle position covered by some leaf. -/
lemma build_loop_inv (n : ℕ) :
    ∀ (fuel : ℕ) (tris : List Triangle) (nodes : List BVHNode) (stack : List (ℕ × ℕ)),
      tris.length = n → NodesOK n nodes →
      (∀ p ∈ stack, p.2 < nodes.length) → Covers n nodes →
      (build_loop fuel tris nodes stack).2.length = n ∧
      (build_loop fuel tris nodes stack).2.Perm tris ∧
      NodesOK n (build_loop fuel tris nodes stack).1 ∧
      Covers n (build_loop fuel tris nodes stack).1 := by
  intro fuel
  induction fuel with
  | zero =>
    intro tris nodes stack hlen hnok _ hcov
    exact ⟨hlen, List.Perm.refl _, hnok, hcov⟩
  | succ fuel ih =>
    intro tris nodes stack hlen hnok hstk hcov
    cases stack with
    | nil => exact ⟨hlen, List.Perm.refl _, hnok, hcov⟩
    | cons top rest =>
      obtain ⟨depth, j⟩ := top
      have hj : j < nodes.length := hstk (depth, j) (List.mem_cons_self _ _)
      by_cases hd : 32 ≤ depth
      · have hred : build_loop (fuel + 1) tris nodes ((depth, j) :: rest) =
            build_loop fuel tris nodes rest := by
          simp only [build_loop]
          rw [if_pos hd]
        rw [hred]
        exact ih tris nodes rest hlen hnok
          (fun p hp => hstk p (List.mem_cons_of_mem _ hp)) hcov
      · rcases hsp : split_node tris (nodes.getD j default) with ⟨tris2, os⟩
        have hperm2 : tris2.Perm tris := by
          by_cases h0 : (nodes.getD j default).count = 0 ∨ (nodes.getD j default).count = 1
          · have hid : split_node tris (nodes.getD j default) = (tris, none) := by
              unfold split_node
              rw [if_pos h0]
            rw [hid] at hsp
            have := congrArg Prod.fst hsp
            simp only at this
            rw [← this]
          · have hrange : (nodes.getD j default).index + (nodes.getD j default).count ≤
                tris.length := by
              rw [hlen]
              exact (hnok j hj).2 (by omega)
            have h := split_node_perm tris (nodes.getD j default) hrange
            rw [hsp] at h
            exact h
        have hlen2 : tris2.length = n := by rw [hperm2.length_eq, hlen]
        cases os with
        | none =>
          have hred : build_loop (fuel + 1) tris nodes ((depth, j) :: rest) =
              build_loop fuel tris2 nodes rest := by
            simp only [build_loop]
            rw [if_neg hd]
            rw [hsp]
          rw [hred]
          obtain ⟨c1, c2, c3, c4⟩ := ih tris2 nodes rest hlen2 hnok
            (fun p hp => hstk p (List.mem_cons_of_mem _ hp)) hcov
          exact ⟨c1, c2.trans hperm2, c3, c4⟩
        | some pair =>
          obtain ⟨l, r⟩ := pair
          obtain ⟨hlidx, hlc, hrc, hridx, hsum⟩ :=
            split_node_some_facts tris _ tris2 l r hsp
          have hcnt : (nodes.getD j default).count ≠ 0 := by omega
          have hrange : (nodes.getD j default).index + (nodes.getD j default).count ≤ n :=
            (hnok j hj).2 hcnt
          have hlen_set : (nodes.set j ((nodes.getD j default).make_inner nodes.length)).length =
              nodes.length := by simp
          have hlen_n2 : ((nodes.set j ((nodes.getD j default).make_inner nodes.length)) ++
              [l, r]).length = nodes.length + 2 := by simp
          have hget_lt : ∀ i, i < nodes.length → i ≠ j →
              ((nodes.set j ((nodes.getD j default).make_inner nodes.length)) ++
                [l, r]).getD i default = nodes.getD i default := by
            intro i hi hij
            rw [List.getD_append _ _ _ _ (by omega : i < (nodes.set j _).length)]
            exact getD_set_ne _ _ _ _ hij
          have hget_j : ((nodes.set j ((nodes.getD j default).make_inner nodes.length)) ++
              [l, r]).getD j default = (nodes.getD j default).make_inner nodes.length := by
            rw [List.getD_append _ _ _ _ (by omega : j < (nodes.set j _).length)]
            exact getD_set_self _ _ _ (by omega)
          have hget_l : ((nodes.set j ((nodes.getD j default).make_inner nodes.length)) ++
              [l, r]).getD nodes.length default = l := by
            rw [List.getD_append_right _ _ _ _ (by omega : (nodes.set j _).length ≤ nodes.length)]
            rw [hlen_set]
            simp
          have hget_r : ((nodes.set j ((nodes.getD j default).make_inner nodes.length)) ++
              [l, r]).getD (nodes.length + 1) default = r := by
            rw [List.getD_append_right _ _ _ _
              (by omega : (nodes.set j _).length ≤ nodes.length + 1)]
            rw [hlen_set]
            simp
          have hnok2 : NodesOK n
              ((nodes.set j ((nodes.getD j default).make_inner nodes.length)) ++ [l, r]) := by
            intro i hi
            rw [hlen_n2] at hi
            rcases Nat.lt_or_ge i nodes.length with hilt | hige
            · by_cases hij : i = j
              · subst hij
                rw [hget_j]
                refine ⟨fun _ => ⟨by rw [make_inner_index]; omega,
                  by rw [hlen_n2, make_inner_index]; omega⟩, ?_⟩
                intro hc
                rw [make_inner_count] at hc
                omega
              · rw [hget_lt i hilt hij]
                refine ⟨fun hc => ⟨((hnok i hilt).1 hc).1, ?_⟩, (hnok i hilt).2⟩
                rw [hlen_n2]
                have := ((hnok i hilt).1 hc).2
                omega
            · rcases show i = nodes.length ∨ i = nodes.length + 1 by omega with rfl | hsc
              · rw [hget_l]
                exact ⟨fun hc => absurd hc (by omega), fun _ => by omega⟩
              · rw [hsc, hget_r]
                exact ⟨fun hc => absurd hc (by omega), fun _ => by omega⟩
          have hstk2 : ∀ p ∈ ((depth + 1, nodes.length + 1) :: (depth + 1, nodes.length) :: rest),
              p.2 < ((nodes.set j ((nodes.getD j default).make_inner nodes.length)) ++
                [l, r]).length := by
            intro p hp
            rw [hlen_n2]
            rcases List.mem_cons.mp hp with rfl | hp'
            · omega
            rcases List.mem_cons.mp hp' with rfl | hp''
            · omega
            · have := hstk p (List.mem_cons_of_mem _ hp'')
              omega
          have hcov2 : Covers n
              ((nodes.set j ((nodes.getD j default).make_inner nodes.length)) ++ [l, r]) := by
            intro k hk
            obtain ⟨j', hj', hc', hle', hlt'⟩ := hcov k hk
            by_cases hjj : j' = j
            · subst hjj
              by_cases hkl : k < (nodes.getD j' default).index + l.count
              · refine ⟨nodes.length, by omega, ?_⟩
                rw [hget_l]
                exact ⟨by omega, by omega, by omega⟩
              · refine ⟨nodes.length + 1, by omega, ?_⟩
                rw [hget_r]
                refine ⟨by omega, by omega, by omega⟩
            · refine ⟨j', by omega, ?_⟩
              rw [hget_lt j' hj' hjj]
              exact ⟨hc', hle', hlt'⟩
          have hred : build_loop (fuel + 1) tris nodes ((depth, j) :: rest) =
              build_loop fuel tris2
                ((nodes.set j ((nodes.getD j default).make_inner nodes.length)) ++ [l, r])
                ((depth + 1, nodes.length + 1) :: (depth + 1, nodes.length) :: rest) := by
            simp only [build_loop]
            rw [if_neg hd]
            rw [hsp]
          rw [hred]
          obtain ⟨c1, c2, c3, c4⟩ := ih tris2 _ _ hlen2 hnok2 hstk2 hcov2
          exact ⟨c1, c2.trans hperm2, c3, c4⟩

end BVHTree

namespace BVHTree

/-- The finished build of a non-empty mesh: permuted cache of unchanged
length, sound node array, full leaf coverage. -/
lemma build_state_inv (m : Mesh) (h : 0 < (triangle_cache m.vertices m.indices).length) :
    (build_state m).2.length = (triangle_cache m.vertices m.indices).length ∧
    (build_state m).2.Perm (triangle_cache m.vertices m.indices) ∧
    NodesOK (triangle_cache m.vertices m.indices).length (build_state m).1 ∧
    Covers (triangle_cache m.vertices m.indices).length (build_state m).1 := by
  unfold build_state
  dsimp only
  apply build_loop_inv (triangle_cache m.vertices m.indices).length (3 ^ 32)
    (triangle_cache m.vertices m.indices)
    [build_leaf (triangle_cache m.vertices m.indices) 0
      (triangle_cache m.vertices m.indices).length]
    [(0, 0)] rfl
  · intro i hi
    have hi0 : i = 0 := by simpa using hi
    subst hi0
    simp only [List.getD_cons_zero, build_leaf_index, build_leaf_count]
    exact ⟨fun hc => absurd hc (by omega), fun _ => by omega⟩
  · intro p hp
    have : p = (0, 0) := by simpa using hp
    subst this
    simp
  · intro k hk
    refine ⟨0, by simp, ?_⟩
    simp only [List.getD_cons_zero, build_leaf_index, build_leaf_count]
    omega

/-- Triplet `i` of the flattened index buffer is the vertex index triple of
triangle `i`. -/
lemma flatMap_triple (ts : List Triangle) : ∀ i, i < ts.length →
    ((ts.flatMap (fun t => [t.indices.1, t.indices.2.1, t.indices.2.2])).getD (3 * i) 0,
      (ts.flatMap (fun t => [t.indices.1, t.indices.2.1, t.indices.2.2])).getD (3 * i + 1) 0,
      (ts.flatMap (fun t => [t.indices.1, t.indices.2.1, t.indices.2.2])).getD (3 * i + 2) 0) =
      (ts.getD i default).indices := by
  induction ts with
  | nil => intro i hi; simp at hi
  | cons t rest ih =>
    intro i hi
    cases i with
    | zero => simp [List.flatMap_cons]
    | succ i =>
      have h3 : ∀ c : ℕ, 3 * (i + 1) + c = 3 + (3 * i + c) := by intro c; omega
      simp only [List.flatMap_cons, List.getD_cons_succ]
      rw [show (3 * (i+1)) = 3 + 3 * i by omega]
      rw [show (3 + 3 * i + 1) = 3 + (3 * i + 1) by omega,
        show (3 + 3 * i + 2) = 3 + (3 * i + 2) by omega]
      have happ : ∀ c : ℕ, (([t.indices.1, t.indices.2.1, t.indices.2.2] : List ℕ) ++
          rest.flatMap (fun t => [t.indices.1, t.indices.2.1, t.indices.2.2])).getD (3 + c) 0 =
          (rest.flatMap (fun t => [t.indices.1, t.indices.2.1, t.indices.2.2])).getD c 0 := by
        intro c
        rw [List.getD_append_right _ _ _ _ (by simp)]
        simp
      rw [happ, happ, happ]
      exact ih i (by simpa using hi)

end BVHTree

namespace BVHTree

/-- Counterexample to claim C1 as stated: in the BVH built from two
well-separated triangles, node 2 is a leaf whose fourth field (`count`)
equals 1 while its `index` is 1, so reading the fourth field as an
exclusive `end` of the range `[start, end)` fails (`end > start` is
violated and the denoted range is empty). -/
theorem end_encoding_claim_counterexample :
    ¬ end_encoding_claim (build_state exMesh2).1 (build_state exMesh2).2.length := by
  unfold end_encoding_claim
  intro h
  have h2 := (h 2 (by decide)).2 (by decide)
  have hidx : ((build_state exMesh2).1.getD 2 default).index = 1 := by decide
  have hcnt : ((build_state exMesh2).1.getD 2 default).count = 1 := by decide
  omega

/-- Claim C1 (amended): in every node array built by `build_bvh` on a
non-empty mesh, a node is a leaf iff its fourth 32-bit field (`count`) is
non-zero; when `count = 0` the node is inner, its `index` is the left child
and the right child at `index + 1` is in bounds; when `count ≠ 0` the
fourth field is the size of the leaf's primitive range, which covers the
half-open interval `[index, index + count)` of the (permuted) triangle
slice. -/
theorem build_bvh_count_encoding (m : Mesh)
    (h : 0 < (triangle_cache m.vertices m.indices).length) :
    ∀ i, i < (build_bvh m).nodes.length →
      (((build_bvh m).nodes.getD i default).is_leaf = false ↔
        ((build_bvh m).nodes.getD i default).count = 0) ∧
      (((build_bvh m).nodes.getD i default).count = 0 →
        ((build_bvh m).nodes.getD i default).index + 1 < (build_bvh m).nodes.length) ∧
      (((build_bvh m).nodes.getD i default).count ≠ 0 →
        ((build_bvh m).nodes.getD i default).index +
          ((build_bvh m).nodes.getD i default).count ≤ (build_state m).2.length) := by
  obtain ⟨hlen, -, hnok, -⟩ := build_state_inv m h
  intro i hi
  have hns : (build_bvh m).nodes = (build_state m).1 := rfl
  rw [hns] at hi ⊢
  refine ⟨?_, fun hc => ((hnok i hi).1 hc).2, fun hc => ?_⟩
  · simp [BVHNode.is_leaf]
  · rw [hlen]
    exact (hnok i hi).2 hc

/-- Witness for the amended C1 on the two-triangle mesh: node 1 is a leaf
of one triangle starting at slot 0. -/
theorem build_bvh_count_encoding_witness :
    (((build_bvh exMesh2).nodes.getD 1 default).is_leaf = false ↔
      ((build_bvh exMesh2).nodes.getD 1 default).count = 0) ∧
    (((build_bvh exMesh2).nodes.getD 1 default).count = 0 →
      ((build_bvh exMesh2).nodes.getD 1 default).index + 1 <
        (build_bvh exMesh2).nodes.length) ∧
    (((build_bvh exMesh2).nodes.getD 1 default).count ≠ 0 →
      ((build_bvh exMesh2).nodes.getD 1 default).index +
        ((build_bvh exMesh2).nodes.getD 1 default).count ≤
        (build_state exMesh2).2.length) :=
  build_bvh_count_encoding exMesh2 (by decide) 1 (by decide)

/-- Claim C10: in every node array built by `build_bvh` on a non-empty
mesh, an inner node's left-child index is strictly greater than the node's
own index, the right child sits at `left + 1`, and both children are in
bounds — links point strictly forward, so the graph is acyclic. -/
theorem build_bvh_forward_links (m : Mesh)
    (h : 0 < (triangle_cache m.vertices m.indices).length) :
    ∀ i, i < (build_bvh m).nodes.length →
      ((build_bvh m).nodes.getD i default).count = 0 →
      i < ((build_bvh m).nodes.getD i default).index ∧
      ((build_bvh m).nodes.getD i default).index + 1 < (build_bvh m).nodes.length := by
  obtain ⟨-, -, hnok, -⟩ := build_state_inv m h
  intro i hi hc
  exact (hnok i hi).1 hc

/-- Witness for C10: the root of the two-triangle build is inner with its
left child strictly below (after) it and both children in bounds. -/
theorem build_bvh_forward_links_witness :
    0 < ((build_bvh exMesh2).nodes.getD 0 default).index ∧
    ((build_bvh exMesh2).nodes.getD 0 default).index + 1 <
      (build_bvh exMesh2).nodes.length :=
  build_bvh_forward_links exMesh2 (by decide) 0 (by decide) (by decide)

/-- Claim C6: after `build_bvh` the triangle cache is a permutation of its
initial contents (the sweep of `split` moves nothing outside the range
being split, so the permutation is the identity outside the built range),
and triplet `i` of the flattened index buffer equals `triangles[i].indices`
of the permuted cache. -/
theorem build_bvh_permutation (m : Mesh)
    (h : 0 < (triangle_cache m.vertices m.indices).length) :
    (build_state m).2.Perm (triangle_cache m.vertices m.indices) ∧
    (∀ i, i < (build_state m).2.length →
      ((build_bvh m).indices.getD (3 * i) 0, (build_bvh m).indices.getD (3 * i + 1) 0,
        (build_bvh m).indices.getD (3 * i + 2) 0) =
      ((build_state m).2.getD i default).indices) ∧
    (∀ (tris : List Triangle) (parent : BVHNode) (sp : Split) (j : ℕ),
      parent.index + parent.count ≤ tris.length →
      (j < parent.index ∨ parent.index + parent.count ≤ j) →
      (split tris parent sp).1.getD j default = tris.getD j default) := by
  obtain ⟨-, hperm, -, -⟩ := build_state_inv m h
  refine ⟨hperm, ?_, ?_⟩
  · intro i hi
    exact flatMap_triple (build_state m).2 i hi
  · intro tris parent sp j hr hj
    exact (split_partition_spec tris parent sp hr).2.1 j hj

/-- Witness for C6 on the two-triangle mesh: its permuted cache is a
permutation of the initial cache and triplet 0 of the flattened buffer is
triangle 0's index triple. -/
theorem build_bvh_permutation_witness :
    (build_state exMesh2).2.Perm (triangle_cache exMesh2.vertices exMesh2.indices) ∧
    ((build_bvh exMesh2).indices.getD 0 0, (build_bvh exMesh2).indices.getD 1 0,
      (build_bvh exMesh2).indices.getD 2 0) =
      ((build_state exMesh2).2.getD 0 default).indices := by
  have h := build_bvh_permutation exMesh2 (by decide)
  exact ⟨h.1, h.2.1 0 (by decide)⟩

end BVHTree

namespace BVHTree

/-- Counterexample to claim C7 as stated: the third triangle of
`exTrisNaN` has a non-finite (all-NaN) AABB, yet the node covering all
three triangles *is* split — the NaN bounds are invisible to the
NaN-ignoring `f32::min`/`f32::max`, so both candidate bins stay finite and
a candidate split is accepted for the node containing the degenerate
primitive. -/
theorem degenerate_split_counterexample :
    ((exTrisNaN.getD 2 default).min.isFinite = false ∧
      (exTrisNaN.getD 2 default).max.isFinite = false) ∧
    (build_leaf exTrisNaN 0 3).index = 0 ∧ (build_leaf exTrisNaN 0 3).count = 3 ∧
    (split_node exTrisNaN (build_leaf exTrisNaN 0 3)).2 ≠ none :=
  ⟨by decide, by decide, by decide, by decide⟩

/-- Claim C7 (amended): the SAH cost of any node or bin whose box extent
is not finite is `+inf`; for a primitive whose AABB has an infinite
outward bound (any vertex-induced non-NaN degeneracy), no candidate split
is ever accepted for a node containing it — `split_node` returns `None`
and leaves the slice untouched, so the build completes and the degenerate
primitive remains inside a leaf (every triangle position of a finished
build is covered by a leaf). -/
theorem degenerate_stays_in_leaf :
    (∀ nd : BVHNode, (EVec3.vsub nd.max nd.min).isFinite = false → nd.cost = .pos_inf) ∧
    (∀ b : Bin, (EVec3.vsub b.max b.min).isFinite = false → b.cost = .pos_inf) ∧
    (∀ (tris : List Triangle) (parent : BVHNode),
      (∃ i, parent.index ≤ i ∧ i < parent.index + parent.count ∧
        (tris.getD i default).infDegenerate) →
      split_node tris parent = (tris, none)) ∧
    (∀ m : Mesh, 0 < (triangle_cache m.vertices m.indices).length →
      Covers (triangle_cache m.vertices m.indices).length (build_bvh m).nodes) :=
  ⟨fun _ h => BVHNode.node_cost_eq_pos_inf_of_not_finite h,
    fun _ h => Bin.cost_eq_pos_inf_of_not_finite h,
    fun tris parent hdeg => split_node_none_of_infDegenerate tris parent hdeg,
    fun m h => (build_state_inv m h).2.2.2⟩

/-- Witness for the amended C7: a two-triangle range containing a triangle
with a `+inf` AABB bound is not split, and the two-triangle example build
covers every triangle position with a leaf. -/
theorem degenerate_stays_in_leaf_witness :
    split_node [infTriangle, mkTriangle (exTriVerts 0 1) 0 1 2]
      (build_leaf [infTriangle, mkTriangle (exTriVerts 0 1) 0 1 2] 0 2) =
      ([infTriangle, mkTriangle (exTriVerts 0 1) 0 1 2], none) ∧
    Covers (triangle_cache exMesh2.vertices exMesh2.indices).length
      (build_bvh exMesh2).nodes := by
  refine ⟨degenerate_stays_in_leaf.2.2.1 _ _ ⟨0, by decide, by decide, ?_⟩,
    degenerate_stays_in_leaf.2.2.2 exMesh2 (by decide)⟩
  exact ⟨0, by omega, Or.inr (by decide)⟩

end BVHTree

/-- Incrementing commutes with reduction mod `N`. -/
lemma add_one_mod_eq (L N : ℕ) : (L % N + 1) % N = (L + 1) % N := by
  conv_rhs => rw [Nat.add_mod]
  rw [Nat.add_mod (L % N) 1 N, Nat.mod_mod_of_dvd _ dvd_rfl]

/-- Positions `1 ≤ j < N` steps back land in a different ring-buffer slot. -/
lemma sub_mod_ne (L N j : ℕ) (h1 : 1 ≤ j) (h2 : j < N) (h3 : j ≤ L) :
    (L - j) % N ≠ L % N := by
  intro he
  have h4 : L % N = ((L - j) % N + j % N) % N := by
    conv_lhs => rw [show L = (L - j) + j by omega, Nat.add_mod]
  rw [he, Nat.mod_eq_of_lt h2] at h4
  have hr : L % N < N := Nat.mod_lt _ (by omega)
  rcases Nat.lt_or_ge (L % N + j) N with hlt | hge
  · have hv : (L % N + j) % N = L % N + j := Nat.mod_eq_of_lt hlt
    rw [hv] at h4
    omega
  · have hv : (L % N + j) % N = L % N + j - N := by
      rw [Nat.mod_eq_sub_mod hge, Nat.mod_eq_of_lt (by omega)]
    rw [hv] at h4
    omega

/-- `getD` after `set` at the same (in-range) position, any default. -/
lemma getD_set_self' {α : Type} (l : List α) (j : ℕ) (v d : α)
    (hj : j < l.length) : (l.set j v).getD j d = v := by
  rw [List.getD_eq_getElem?_getD, List.getElem?_set_self (by simpa using hj)]
  rfl

/-- `getD` after `set` at a different position, any default. -/
lemma getD_set_ne' {α : Type} (l : List α) (j s : ℕ) (v d : α)
    (h : s ≠ j) : (l.set j v).getD s d = l.getD s d := by
  rw [List.getD_eq_getElem?_getD, List.getElem?_set_ne (by omega), ← List.getD_eq_getElem?_getD]

namespace PerformanceMetrics

/-- Ring-buffer invariant of the metrics loop: running a call sequence
from a state whose buffer, index, count and rolling sum describe the
already-recorded durations `ds` yields a state describing `ds` extended by
the durations the sequence records. -/
lemma mrun_inv (N : ℕ) (hN : 0 < N) :
    ∀ (evs : List MEvent) (s : PerformanceMetrics) (ds : List ℚ),
      s.frame_time_buffer.length = N →
      s.n_frames = min ds.length N →
      s.idx = ds.length % N →
      s.summed_frame_time = (ds.drop (ds.length - N)).sum →
      (∀ j, j < min ds.length N →
        s.frame_time_buffer.getD ((ds.length - 1 - j) % N) 0 =
          ds.getD (ds.length - 1 - j) 0) →
      (evs.foldl (mstep N) s).n_frames = min (ds ++ deltas s.last_frame evs).length N ∧
      (evs.foldl (mstep N) s).summed_frame_time =
        ((ds ++ deltas s.last_frame evs).drop
          ((ds ++ deltas s.last_frame evs).length - N)).sum ∧
      (∀ j, j < min (ds ++ deltas s.last_frame evs).length N →
        (evs.foldl (mstep N) s).frame_time_buffer.getD
            (((ds ++ deltas s.last_frame evs).length - 1 - j) % N) 0 =
          (ds ++ deltas s.last_frame evs).getD
            ((ds ++ deltas s.last_frame evs).length - 1 - j) 0) := by
  intro evs
  induction evs with
  | nil =>
    intro s ds h1 h2 h3 h4 h5
    have hdel : deltas s.last_frame [] = [] := by cases s.last_frame <;> rfl
    rw [List.foldl_nil, hdel, List.append_nil]
    exact ⟨h2, h4, h5⟩
  | cons ev rest ih =>
    intro s ds h1 h2 h3 h4 h5
    simp only [List.foldl_cons]
    cases ev with
    | pause =>
      have hdel : deltas s.last_frame (MEvent.pause :: rest) = deltas none rest := by
        cases s.last_frame <;> rfl
      rw [hdel]
      exact ih (pause s) ds h1 h2 h3 h4 h5
    | next t =>
      cases hl : s.last_frame with
      | none =>
        rw [show deltas none (MEvent.next t :: rest) = deltas (some t) rest from rfl]
        have hstep : mstep N s (MEvent.next t) = { s with last_frame := some t } := by
          simp only [mstep, next_frame, hl]
        rw [hstep]
        exact ih _ ds h1 h2 h3 h4 h5
      | some t0 =>
        rw [show deltas (some t0) (MEvent.next t :: rest) =
          max (t - t0) 0 :: deltas (some t) rest from rfl]
        rw [show ds ++ (max (t - t0) 0 :: deltas (some t) rest) =
          (ds ++ [max (t - t0) 0]) ++ deltas (some t) rest by simp]
        set d := max (t - t0) 0 with hd
        set L := ds.length with hL
        have hstep : mstep N s (MEvent.next t) = {
            last_frame := some t
            curr_frame_time := d
            time_since_start := s.time_since_start + d
            frame_time_buffer := s.frame_time_buffer.set s.idx d
            idx := (s.idx + 1) % N
            n_frames := if s.n_frames < N then s.n_frames + 1 else s.n_frames
            summed_frame_time := if s.n_frames < N then s.summed_frame_time + d
              else s.summed_frame_time + d - s.frame_time_buffer.getD s.idx 0 } := by
          simp only [mstep, next_frame, hl]
          split <;> rfl
        rw [hstep]
        have hlen' : (ds ++ [d]).length = L + 1 := by simp
        apply ih _ (ds ++ [d])
        · simpa using h1
        · rw [hlen']
          dsimp only
          rcases Nat.lt_or_ge L N with hLN | hLN
          · rw [if_pos (by omega)]
            omega
          · rw [if_neg (by omega)]
            omega
        · dsimp only
          rw [hlen', h3, add_one_mod_eq]
        · dsimp only
          rw [hlen']
          rcases Nat.lt_or_ge L N with hLN | hLN
          · rw [if_pos (by omega)]
            rw [h4, show L - N = 0 by omega, show L + 1 - N = 0 by omega]
            simp
          · rw [if_neg (by omega)]
            have hbuf : s.frame_time_buffer.getD s.idx 0 = ds.getD (L - N) 0 := by
              have h5x := h5 (N - 1) (by omega)
              rw [show L - 1 - (N - 1) = L - N by omega] at h5x
              rw [← Nat.mod_eq_sub_mod hLN, ← h3] at h5x
              exact h5x
            have hdrop : ds.drop (L - N) = ds.getD (L - N) 0 :: ds.drop (L - N + 1) := by
              rw [List.getD_eq_getElem?_getD, List.getElem?_eq_getElem (by omega),
                Option.getD_some]
              exact List.drop_eq_getElem_cons (by omega)
            have hdrop2 : (ds ++ [d]).drop (L + 1 - N) = ds.drop (L + 1 - N) ++ [d] := by
              rw [List.drop_append_of_le_length (by omega)]
            rw [hdrop2, h4, hbuf, hdrop, show L - N + 1 = L + 1 - N by omega]
            simp only [List.sum_cons, List.sum_append, List.sum_nil]
            ring
        · dsimp only
          rw [hlen']
          intro j hj
          rw [show L + 1 - 1 - j = L - j by omega]
          by_cases hj0 : j = 0
          · subst hj0
            rw [Nat.sub_zero, ← h3]
            rw [getD_set_self' _ _ _ _ (by rw [h1, h3]; exact Nat.mod_lt _ hN)]
            rw [List.getD_append_right _ _ _ _ (le_refl ds.length)]
            simp
          · have hne : (L - j) % N ≠ s.idx := by
              rw [h3]
              exact sub_mod_ne L N j (by omega) (by omega) (by omega)
            rw [getD_set_ne' _ _ _ _ _ hne]
            have h5x := h5 (j - 1) (by omega)
            rw [show L - 1 - (j - 1) = L - j by omega] at h5x
            rw [h5x]
            rw [List.getD_append _ _ _ _ (by omega : L - j < ds.length)]

end PerformanceMetrics

namespace BVHTree

/-- The build loop's result does not depend on the fuel so long as the fuel
dominates `stack_measure`: every iteration pops `3 ^ (32 - depth)` from the
measure and pushes back at most `2 * 3 ^ (32 - depth - 1)`, so the measure
strictly decreases. -/
lemma build_loop_fuel_irrelevant :
    ∀ (f g : ℕ) (tris : List Triangle) (nodes : List BVHNode) (stack : List (ℕ × ℕ)),
      stack_measure stack ≤ f → stack_measure stack ≤ g →
      build_loop f tris nodes stack = build_loop g tris nodes stack := by
  intro f
  induction f with
  | zero =>
    intro g tris nodes stack hf hg
    cases stack with
    | nil => cases g <;> rfl
    | cons top rest =>
      exfalso
      obtain ⟨depth, j⟩ := top
      have h1 : 1 ≤ 3 ^ (32 - depth) := Nat.one_le_pow _ _ (by norm_num)
      have hm : stack_measure ((depth, j) :: rest) = 3 ^ (32 - depth) + stack_measure rest := by
        simp [stack_measure]
      omega
  | succ f ih =>
    intro g tris nodes stack hf hg
    cases stack with
    | nil => cases g <;> rfl
    | cons top rest =>
      obtain ⟨depth, j⟩ := top
      have h1 : 1 ≤ 3 ^ (32 - depth) := Nat.one_le_pow _ _ (by norm_num)
      have hm : stack_measure ((depth, j) :: rest) = 3 ^ (32 - depth) + stack_measure rest := by
        simp [stack_measure]
      cases g with
      | zero => omega
      | succ g =>
        by_cases hd : 32 ≤ depth
        · have hredf : build_loop (f + 1) tris nodes ((depth, j) :: rest) =
              build_loop f tris nodes rest := by
            simp only [build_loop]
            rw [if_pos hd]
          have hredg : build_loop (g + 1) tris nodes ((depth, j) :: rest) =
              build_loop g tris nodes rest := by
            simp only [build_loop]
            rw [if_pos hd]
          rw [hredf, hredg]
          exact ih g tris nodes rest (by omega) (by omega)
        · rcases hsp : split_node tris (nodes.getD j default) with ⟨tris2, os⟩
          cases os with
          | none =>
            have hredf : build_loop (f + 1) tris nodes ((depth, j) :: rest) =
                build_loop f tris2 nodes rest := by
              simp only [build_loop]
              rw [if_neg hd]
              rw [hsp]
            have hredg : build_loop (g + 1) tris nodes ((depth, j) :: rest) =
                build_loop g tris2 nodes rest := by
              simp only [build_loop]
              rw [if_neg hd]
              rw [hsp]
            rw [hredf, hredg]
            exact ih g tris2 nodes rest (by omega) (by omega)
          | some pair =>
            obtain ⟨l, r⟩ := pair
            have hredf : build_loop (f + 1) tris nodes ((depth, j) :: rest) =
                build_loop f tris2
                  ((nodes.set j ((nodes.getD j default).make_inner nodes.length)) ++ [l, r])
                  ((depth + 1, nodes.length + 1) :: (depth + 1, nodes.length) :: rest) := by
              simp only [build_loop]
              rw [if_neg hd]
              rw [hsp]
            have hredg : build_loop (g + 1) tris nodes ((depth, j) :: rest) =
                build_loop g tris2
                  ((nodes.set j ((nodes.getD j default).make_inner nodes.length)) ++ [l, r])
                  ((depth + 1, nodes.length + 1) :: (depth + 1, nodes.length) :: rest) := by
              simp only [build_loop]
              rw [if_neg hd]
              rw [hsp]
            rw [hredf, hredg]
            have hm2 : stack_measure
                ((depth + 1, nodes.length + 1) :: (depth + 1, nodes.length) :: rest) =
                3 ^ (32 - (depth + 1)) + (3 ^ (32 - (depth + 1)) + stack_measure rest) := by
              simp [stack_measure]
            have hpow : 3 ^ (32 - depth) = 3 * 3 ^ (32 - (depth + 1)) := by
              rw [show 32 - depth = (32 - (depth + 1)) + 1 by omega, pow_succ]
              ring
            have h2 : 1 ≤ 3 ^ (32 - (depth + 1)) := Nat.one_le_pow _ _ (by norm_num)
            exact ih g tris2 _ _ (by omega) (by omega)

/-- The fuel `3 ^ 32` used by `build_state` is the measure of the initial
stack `[(0, 0)]`, so any fuel at least that large computes the same tree:
the source's unbounded `while` loop is modelled faithfully. -/
lemma build_state_eq_fuel (m : Mesh) (g : ℕ) (hg : 3 ^ 32 ≤ g) :
    build_state m =
      build_loop g (triangle_cache m.vertices m.indices)
        [build_leaf (triangle_cache m.vertices m.indices) 0
          (triangle_cache m.vertices m.indices).length] [(0, 0)] := by
  have hm : stack_measure [(0, 0)] = 3 ^ 32 := by
    simp [stack_measure]
  exact build_loop_fuel_irrelevant (3 ^ 32) g _ _ _ (by omega) (by omega)

end BVHTree

namespace PerformanceMetrics

/-- Claim C9: for every buffer size `N > 0` and every sequence of
`next_frame` / `pause` calls run from the default state: a `next_frame`
with no stored timestamp only records the timestamp and changes nothing
else; afterwards `n_frames` is `min recorded N` where `recorded` counts the
durations the sequence records, the rolling sum is the sum of the most
recent `min recorded N` durations (the oldest entry is evicted once `N` are
filled), the ring buffer holds the `j`-th most recent duration at slot
`(recorded - 1 - j) % N`, and `avg_frame_time` is the rolling sum divided
by the filled count (`0` when nothing is recorded). -/
theorem metrics_ring_buffer (N : ℕ) (hN : 0 < N) (evs : List MEvent) :
    (∀ (t : ℚ) (s : PerformanceMetrics), s.last_frame = none →
      next_frame N t s = { s with last_frame := some t }) ∧
    (mrun N evs).n_frames = min (deltas none evs).length N ∧
    (mrun N evs).summed_frame_time =
      ((deltas none evs).drop ((deltas none evs).length - N)).sum ∧
    (∀ j, j < min (deltas none evs).length N →
      (mrun N evs).frame_time_buffer.getD
          (((deltas none evs).length - 1 - j) % N) 0 =
        (deltas none evs).getD ((deltas none evs).length - 1 - j) 0) ∧
    (mrun N evs).avg_frame_time =
      if min (deltas none evs).length N = 0 then 0
      else ((deltas none evs).drop ((deltas none evs).length - N)).sum /
        (min (deltas none evs).length N : ℚ) := by
  have key := mrun_inv N hN evs (init N) []
    (by simp [init]) (by simp [init]) (by simp [init]) (by simp [init])
    (by intro j hj; simp at hj)
  have hlf : (init N).last_frame = none := rfl
  rw [hlf, List.nil_append] at key
  obtain ⟨hn, hs, hb⟩ := key
  refine ⟨?_, hn, hs, hb, ?_⟩
  · intro t s hsl
    simp only [next_frame, hsl]
  · simp only [avg_frame_time, mrun]
    rw [hn, hs]
    norm_cast

/-- A concrete call trace: two frames, a pause (so the following
`next_frame` records no duration), then three more frames. -/
def exEvs : List MEvent :=
  [MEvent.next 1, MEvent.next 3, MEvent.pause, MEvent.next 10,
   MEvent.next 11, MEvent.next 14]

theorem metrics_ring_buffer_witness :
    0 < 2 ∧
    ((∀ (t : ℚ) (s : PerformanceMetrics), s.last_frame = none →
        next_frame 2 t s = { s with last_frame := some t }) ∧
      (mrun 2 exEvs).n_frames = min (deltas none exEvs).length 2 ∧
      (mrun 2 exEvs).summed_frame_time =
        ((deltas none exEvs).drop ((deltas none exEvs).length - 2)).sum ∧
      (∀ j, j < min (deltas none exEvs).length 2 →
        (mrun 2 exEvs).frame_time_buffer.getD
            (((deltas none exEvs).length - 1 - j) % 2) 0 =
          (deltas none exEvs).getD ((deltas none exEvs).length - 1 - j) 0) ∧
      (mrun 2 exEvs).avg_frame_time =
        if min (deltas none exEvs).length 2 = 0 then 0
        else ((deltas none exEvs).drop ((deltas none exEvs).length - 2)).sum /
          (min (deltas none exEvs).length 2 : ℚ)) :=
  ⟨by decide, metrics_ring_buffer 2 (by decide) exEvs⟩

end PerformanceMetrics
